import Mathlib

/-!
Verification of the `iputils` radix-tree IP set (`src/ipset.go`).

The Go code stores CIDR prefixes in a binary trie keyed on the bits of the
address (most-significant bit first).  We embed it shallowly:

* a Go `*node` (which may be `nil`) becomes `Tree V`: `Tree.nil` is the nil
  pointer, `Tree.node l r v` a `node` with children `l`, `r` and value `v`
  (`interface{}` values become `Option V`, Go `nil` being `none`);
* the byte-and-bitmap walk of the Go loops (`i`, `bitmap = 0x80 >> (d % 8)`)
  becomes structural recursion over the list of bits `toBits key` /
  `toBits mask`, which enumerates exactly the positions the Go loops visit;
* the imperative parent-pointer climb of `delete` becomes propagation of a
  `prune` marker up the recursion (the recursion stack is the path, i.e. the
  reversed chain of `parent` pointers);
* Go panics (index out of range on empty inputs, and the nil-pointer
  dereference `node.parent.right` when the reached node is the root) are made
  explicit as `panicked` outcomes;
* the node arena (`newNode`, and the free-list push in `delete`) is modelled
  separately as a store of records addressed by integers, because its whole
  point (reuse of memory) is invisible to the functional tree.
-/

namespace IpSet

/-- A trie vertex or the nil pointer: Go `*node` from `src/ipset.go` lines 10-15
(the `parent` back-pointer is represented by the recursion path instead). -/
inductive Tree (V : Type) where
  | nil : Tree V
  | node (left : Tree V) (right : Tree V) (value : Option V) : Tree V
deriving DecidableEq, Repr

namespace Tree

/-- Whether this is the nil pointer. -/
def isNil {V : Type} : Tree V → Bool
  | Tree.nil => true
  | Tree.node _ _ _ => false

end Tree

/-- The eight bits of one byte, most significant first: the values taken by
`bitmap` (`START_BYTE = 0x80` shifted right) against one byte of key or mask. -/
def byteBits (b : Nat) : List Bool :=
  [b &&& 128 != 0, b &&& 64 != 0, b &&& 32 != 0, b &&& 16 != 0,
   b &&& 8 != 0, b &&& 4 != 0, b &&& 2 != 0, b &&& 1 != 0]

/-- All bits of a byte string, in the order the Go loops consume them
(bytes in order, most significant bit first inside each byte). -/
def toBits (bs : List Nat) : List Bool :=
  bs.flatMap byteBits

/-- Option priority: `orO x y` is `x` when `x` is `some`, else `y`.  This is the
effect of Go `if node.value != nil { value = node.value }` on the accumulator. -/
def orO {V : Type} : Option V → Option V → Option V
  | some v, _ => some v
  | none, y => y

/-- Result of `insert` (`src/ipset.go` lines 42-100).  `panicked` marks inputs
on which the Go code crashes (it reads `mask[0]` before any bounds check, so
empty key/mask slices panic). -/
inductive InsOut (V : Type) where
  | ok (t : Tree V)
  | nodeBusy
  | badIP
  | panicked
deriving DecidableEq, Repr

/-- Result of `delete` (`src/ipset.go` lines 102-160). -/
inductive DelOut (V : Type) where
  | ok (t : Tree V)
  | notFound
  | badIP
  | panicked
deriving DecidableEq, Repr

/-- Result of `find` (`src/ipset.go` lines 162-194). -/
inductive FindOut (V : Type) where
  | ok (v : Option V)
  | badIP
  | panicked
deriving DecidableEq, Repr

/-- The second loop of Go `insert` (lines 81-96): the chain of fresh nodes
created below the point where a required child was missing.  `kb`/`mb` are the
key and mask bits not yet consumed after the bit that selected this node.
Creation continues while mask bits are set; the last node gets the value
(line 97), earlier ones stay valueless branching points. -/
def buildChain {V : Type} : List Bool → List Bool → Option V → Tree V
  | k :: kb, true :: mb, w =>
      if k then Tree.node Tree.nil (buildChain kb mb w) none
      else Tree.node (buildChain kb mb w) Tree.nil none
  | _, _, w => Tree.node Tree.nil Tree.nil w

/-- Go `insert` after its length check, on bit lists (lines 47-99).
The first loop descends while the current mask bit is set and the required
child exists; reaching the end of the mask's set bits or the end of the key
lands on the target node, whose value is set (`ErrNodeBusy` if it already has
one and `overwrite` is false); a missing child switches to `buildChain`.
A nil current node cannot arise from the public entry points (the root always
exists); Go would dereference nil there, hence `panicked`. -/
def insertBits {V : Type} (t : Tree V) (kb mb : List Bool) (w : Option V)
    (ow : Bool) : InsOut V :=
  match kb, t, mb with
  | _, Tree.nil, _ => InsOut.panicked
  | k :: kb', Tree.node l r v, true :: mb' =>
      match (if k then r else l) with
      | Tree.nil =>
          InsOut.ok (if k then Tree.node l (buildChain kb' mb' w) v
                     else Tree.node (buildChain kb' mb' w) r v)
      | c =>
          match insertBits c kb' mb' w ow with
          | InsOut.ok c2 =>
              InsOut.ok (if k then Tree.node l c2 v else Tree.node c2 r v)
          | e => e
  | _, Tree.node l r v, _ =>
      if v.isSome && !ow then InsOut.nodeBusy else InsOut.ok (Tree.node l r w)

/-- Go `insert` (lines 42-100): length check, then the bit walk.  Equal-length
empty inputs pass the check and then panic on `mask[0]` (line 52). -/
def insert {V : Type} (t : Tree V) (key mask : List Nat) (w : Option V)
    (ow : Bool) : InsOut V :=
  if key.length ≠ mask.length then InsOut.badIP
  else if key.isEmpty then InsOut.panicked
  else insertBits t (toBits key) (toBits mask) w ow

/-- Internal result of the `delete` walk: `ok t` ends the climb with the
replaced subtree, `prune b` asks the caller to detach this node (`b` is true
only for the initially reached node, whose detach line 140 dereferences
`node.parent`), `notFound` is the error return. -/
inductive DelStep (V : Type) where
  | ok (t : Tree V)
  | prune (atTarget : Bool)
  | notFound
deriving DecidableEq, Repr

/-- How a node at `Tree.node l r v`, whose child in direction `k` was walked
into, reacts to that child's `DelStep` (Go lines 139-157): an untouched or
replaced child is relinked; a pruned child is detached (`node.parent.left/right
= nil`), and if the node is now childless and valueless the climb continues
(`prune false`), otherwise it stops (line 151). -/
def delChild {V : Type} (l r : Tree V) (v : Option V) (k : Bool)
    (res : DelStep V) : DelStep V :=
  match res with
  | DelStep.ok c => DelStep.ok (if k then Tree.node l c v else Tree.node c r v)
  | DelStep.notFound => DelStep.notFound
  | DelStep.prune _ =>
      let l' := if k then l else Tree.nil
      let r' := if k then Tree.nil else r
      if l'.isNil && r'.isNil && v.isNone then DelStep.prune false
      else DelStep.ok (Tree.node l' r' v)

/-- Go `delete` after its length check, on bit lists (lines 107-157).
The descent (lines 111-123) follows key bits while mask bits are set; stepping
into nil yields `ErrNotFound` (line 126).  At the reached node: with `sub`
false and a child present, a present value is cleared (lines 129-134), an
absent one is `ErrNotFound` (line 135); otherwise the node is detached and the
climb of lines 139-157 runs, modelled by `prune` propagation. -/
def deleteBits {V : Type} (t : Tree V) (kb mb : List Bool) (sub : Bool) :
    DelStep V :=
  match kb, t, mb with
  | _, Tree.nil, _ => DelStep.notFound
  | k :: kb', Tree.node l r v, true :: mb' =>
      delChild l r v k (deleteBits (if k then r else l) kb' mb' sub)
  | _, Tree.node l r v, _ =>
      if !sub && (!l.isNil || !r.isNil) then
        match v with
        | some _ => DelStep.ok (Tree.node l r none)
        | none => DelStep.notFound
      else DelStep.prune true

/-- Go `delete` (lines 102-160).  Empty equal-length inputs panic on `mask[0]`
(line 111).  A `prune true` surfacing here means the reached node was the root
itself: line 140 then dereferences the root's nil `parent` — a panic.  A
`prune false` means the climb emptied the root's last branch and stopped at the
root (line 154), which stays allocated with no children and no value. -/
def delete {V : Type} (t : Tree V) (key mask : List Nat) (sub : Bool) :
    DelOut V :=
  if key.length ≠ mask.length then DelOut.badIP
  else if key.isEmpty then DelOut.panicked
  else
    match deleteBits t (toBits key) (toBits mask) sub with
    | DelStep.ok t2 => DelOut.ok t2
    | DelStep.notFound => DelOut.notFound
    | DelStep.prune true => DelOut.panicked
    | DelStep.prune false => DelOut.ok (Tree.node Tree.nil Tree.nil none)

/-- Go `find` after its length check, on bit lists (lines 167-193), with `acc`
the `value` accumulator.  At each node the value, when non-nil, replaces the
accumulator (lines 172-174); the walk steps by the key bit and stops when the
mask bit just consumed is clear (line 180) or the node is nil.  When the key is
exhausted (lines 185-189) the final node's value is taken unconditionally —
even when it is nil. -/
def findBits {V : Type} (t : Tree V) (kb mb : List Bool) (acc : Option V) :
    Option V :=
  match kb, t, mb with
  | _, Tree.nil, _ => acc
  | k :: kb', Tree.node l r v, mh :: mb' =>
      let acc' := orO v acc
      let child := if k then r else l
      if mh then
        if kb'.isEmpty then
          match child with
          | Tree.nil => acc'
          | Tree.node _ _ cv => cv
        else findBits child kb' mb' acc'
      else acc'
  | _, Tree.node _ _ v, _ => orO v acc

/-- Go `find` (lines 162-194).  Empty equal-length inputs panic on `key[0]`
(line 175). -/
def find {V : Type} (t : Tree V) (key mask : List Nat) : FindOut V :=
  if key.length ≠ mask.length then FindOut.badIP
  else if key.isEmpty then FindOut.panicked
  else FindOut.ok (findBits t (toBits key) (toBits mask) none)

/-- Go `MASK_32 = net.CIDRMask(32, 32)`: four 0xFF bytes. -/
def MASK_32 : List Nat := List.replicate 4 255

/-- Go `MASK_128 = net.CIDRMask(128, 128)`: sixteen 0xFF bytes. -/
def MASK_128 : List Nat := List.replicate 16 255

/-- The tree `NewSet` starts from (lines 36-40): a fresh root node. -/
def freshRoot {V : Type} : Tree V := Tree.node Tree.nil Tree.nil none

/-- Go `Add` (lines 217-219): non-overwriting insert. -/
def Add {V : Type} (t : Tree V) (key mask : List Nat) (w : Option V) : InsOut V :=
  insert t key mask w false

/-- Go `Set` (lines 221-223): overwriting insert. -/
def SetV {V : Type} (t : Tree V) (key mask : List Nat) (w : Option V) : InsOut V :=
  insert t key mask w true

/-- Go `Sub` (lines 225-227): delete the whole subtree. -/
def Sub {V : Type} (t : Tree V) (key mask : List Nat) : DelOut V :=
  delete t key mask true

/-- Go `Remove` (lines 229-231): delete this entry only. -/
def Remove {V : Type} (t : Tree V) (key mask : List Nat) : DelOut V :=
  delete t key mask false

/-- Go `Get` (lines 233-235). -/
def Get {V : Type} (t : Tree V) (key mask : List Nat) : FindOut V :=
  find t key mask

/-- Go `GetByIP` (lines 237-242): a 4-byte address is looked up under
`MASK_32`, anything else under `MASK_128` (so a length that is neither 4 nor
16 fails the length check inside `find`). -/
def GetByIP {V : Type} (t : Tree V) (ip : List Nat) : FindOut V :=
  if ip.length = 4 then find t ip MASK_32 else find t ip MASK_128

/-- The tree after an `insert` call: the Go receiver is mutated only on the
`nil`-error path, so failures leave it unchanged. -/
def afterInsert {V : Type} (t : Tree V) (key mask : List Nat) (w : Option V)
    (ow : Bool) : Tree V :=
  match insert t key mask w ow with
  | InsOut.ok t2 => t2
  | _ => t

/-- The tree after a `delete` call: failures leave the receiver unchanged. -/
def afterDelete {V : Type} (t : Tree V) (key mask : List Nat) (sub : Bool) :
    Tree V :=
  match delete t key mask sub with
  | DelOut.ok t2 => t2
  | _ => t

/-! ### Path semantics of the tree -/

/-- The subtree reached by following a bit path from `t` (nil once any link on
the way is nil). -/
def subtreeAt {V : Type} : Tree V → List Bool → Tree V
  | t, [] => t
  | Tree.nil, _ :: _ => Tree.nil
  | Tree.node l r _, b :: p => subtreeAt (if b then r else l) p

/-- The value registered at a bit path (none when the node is absent or
valueless). -/
def valueAt {V : Type} : Tree V → List Bool → Option V
  | Tree.nil, _ => none
  | Tree.node _ _ v, [] => v
  | Tree.node l r _, b :: p => valueAt (if b then r else l) p

/-- The bit path an operation on key bits `kb` and mask bits `mb` actually
walks: key bits taken while mask bits are set (the Go loops stop at the first
clear mask bit). -/
def maskedPath : List Bool → List Bool → List Bool
  | k :: kb, true :: mb => k :: maskedPath kb mb
  | _, _ => []

/-- Longest-prefix-match semantics over an abstract store `m` of bit-string
prefixes: the value of the deepest prefix of `p` that `m` maps to `some`
(deeper entries take priority via `orO`). -/
def lpmWalk {V : Type} (m : List Bool → Option V) : List Bool → Option V
  | [] => m []
  | b :: p => orO (lpmWalk (fun q => m (b :: q)) p) (m [])

/-- Replacing the value stored at an existing path, leaving everything else in
place (the effect of Go `delete`'s value-clear, lines 131-133). -/
def setValueAt {V : Type} : Tree V → List Bool → Option V → Tree V
  | Tree.nil, _, _ => Tree.nil
  | Tree.node l r _, [], w => Tree.node l r w
  | Tree.node l r v, b :: p, w =>
      if b then Tree.node l (setValueAt r p w) v
      else Tree.node (setValueAt l p w) r v

/-! ### Invariants -/

/-- Depth bound plus fullness: within remaining depth budget `n`, every node at
the exact budget boundary is a valued leaf.  Trees built by inserting
prefixes of one address family (key length `L`, budget `8 * L`) with non-nil
values satisfy this; it is what makes the unconditional final read of `find`
(lines 185-189) agree with longest-prefix semantics. -/
def bvB {V : Type} : Tree V → Nat → Bool
  | Tree.nil, _ => true
  | Tree.node l r v, 0 => l.isNil && r.isNil && v.isSome
  | Tree.node l r v, n + 1 => bvB l n && bvB r n

/-- No node of this subtree (including its own root) is simultaneously
childless and valueless. -/
def noE {V : Type} : Tree V → Bool
  | Tree.nil => true
  | Tree.node l r v => !(l.isNil && r.isNil && v.isNone) && noE l && noE r

/-- Cleanup invariant at the whole-tree level: the root itself is exempt
(a fresh set is an empty root), its descendants are not. -/
def wellTidy {V : Type} : Tree V → Bool
  | Tree.nil => true
  | Tree.node l r _ => noE l && noE r

/-! ### Operation sequences -/

/-- One insertion request: `Add` when `ow` is false, `Set` when true. -/
structure InsOp (V : Type) where
  key : List Nat
  mask : List Nat
  val : Option V
  ow : Bool

/-- Apply one insertion, keeping the tree on failure. -/
def applyIns {V : Type} (t : Tree V) (op : InsOp V) : Tree V :=
  afterInsert t op.key op.mask op.val op.ow

/-- The tree after a sequence of `Add`/`Set` calls starting from `NewSet`. -/
def buildTree {V : Type} (ops : List (InsOp V)) : Tree V :=
  ops.foldl applyIns freshRoot

/-- Specification-level store update for one insertion: `Set` always writes its
value at the masked bit path, `Add` writes only when nothing is stored there. -/
def specStep {V : Type} (m : List Bool → Option V) (op : InsOp V) :
    List Bool → Option V :=
  let tgt := maskedPath (toBits op.key) (toBits op.mask)
  if op.ow then fun q => if q = tgt then op.val else m q
  else
    match m tgt with
    | none => fun q => if q = tgt then op.val else m q
    | some _ => m

/-- The abstract map of stored prefixes after a sequence of insertions. -/
def specStore {V : Type} (ops : List (InsOp V)) : List Bool → Option V :=
  ops.foldl specStep (fun _ => none)

/-- Any public mutating call, for the cleanup-invariant claim. -/
inductive AnyOp (V : Type) where
  | ins (key mask : List Nat) (val : Option V) (ow : Bool)
  | del (key mask : List Nat) (sub : Bool)

/-- Apply one public mutating call, keeping the tree on failure (a run that
panics has no after-state; the fold simply carries the last tree onward). -/
def applyAny {V : Type} (t : Tree V) (op : AnyOp V) : Tree V :=
  match op with
  | AnyOp.ins k m w ow => afterInsert t k m w ow
  | AnyOp.del k m sub => afterDelete t k m sub

/-- Whether an operation inserts a nil value (`interface{}` nil). -/
def insertsNone {V : Type} : AnyOp V → Bool
  | AnyOp.ins _ _ none _ => true
  | AnyOp.ins _ _ (some _) _ => false
  | AnyOp.del _ _ _ => false

/-- The value stored at the root of a subtree. -/
def rootVal {V : Type} : Tree V → Option V
  | Tree.nil => none
  | Tree.node _ _ v => v

/-- How `insert` relinks the current node around the result of the recursive
descent: a successful subtree is grafted back, an error passes through. -/
def insStep {V : Type} (res : InsOut V) (mk : Tree V → Tree V) : InsOut V :=
  match res with
  | InsOut.ok c2 => InsOut.ok (mk c2)
  | e => e

/-! ### The node arena -/

/-- A raw Go node record as the arena sees it: the four fields of `node`,
with pointers as optional integer addresses. -/
structure GoNode (V : Type) where
  left : Option Nat
  right : Option Nat
  parent : Option Nat
  value : Option V
deriving DecidableEq, Repr

/-- The record with every field zero: what Go `make([]node, ALLOC_LEN)`
zero-initializes a fresh pool slot to, and what `newNode` resets a recycled
node to (lines 200-203). -/
def clearedNode {V : Type} : GoNode V := ⟨none, none, none, none⟩

/-- Arena state: the heap of node records, the free-list head (Go `s.free`),
and the next never-carved pool slot.  Pool slots are carved in order and each
at most once (`s.pool` only grows within a block and abandoned blocks are
never re-carved), so a single counter models the block mechanics. -/
structure Arena (V : Type) where
  store : Nat → GoNode V
  free : Option Nat
  next : Nat

/-- Go `newNode` (lines 196-215): pop the free list, clearing all four fields
of the popped node (the free list is threaded through `right`, line 199);
otherwise carve the next zero-initialized pool slot. -/
def newNode {V : Type} (s : Arena V) : Arena V × Nat :=
  match s.free with
  | some p =>
      (⟨fun q => if q = p then clearedNode else s.store q,
        (s.store p).right, s.next⟩, p)
  | none =>
      (⟨fun q => if q = s.next then clearedNode else s.store q,
        none, s.next + 1⟩, s.next)

/-- The free-list push in Go `delete` (lines 146-147): `node.right = s.free;
s.free = node`.  Only `right` is repurposed; the other fields keep whatever
the node held in the tree. -/
def releaseNode {V : Type} (s : Arena V) (p : Nat) : Arena V :=
  ⟨fun q => if q = p then
      ⟨(s.store p).left, s.free, (s.store p).parent, (s.store p).value⟩
    else s.store q,
   some p, s.next⟩

/-! ### Concrete example states (spec examples, IPv4, values are Nat) -/

/-- State with 10.0.0.0/8 mapped to 0 (value A of the spec examples). -/
def exC2 : Tree Nat := afterInsert freshRoot [10,0,0,0] [255,0,0,0] (some 0) false

/-- Spec example 2 then 3: 10.0.0.0/8 mapped to 0. -/
def exC5a : Tree Nat := afterInsert freshRoot [10,0,0,0] [255,0,0,0] (some 0) false

/-- Spec example 2: additionally 10.1.0.0/16 mapped to 1 (value B). -/
def exC5b : Tree Nat := afterInsert exC5a [10,1,0,0] [255,255,0,0] (some 1) false

/-- Spec example 3: the state after Remove(10.1.0.0/16). -/
def exC5c : Tree Nat := afterDelete exC5b [10,1,0,0] [255,255,0,0] false

/-- State with only 10.0.0.0/8 mapped to 0, for the double-Add example. -/
def exC6 : Tree Nat := afterInsert freshRoot [10,0,0,0] [255,0,0,0] (some 0) false

/-- Insertion sequence of spec example 2, as a list of operations. -/
def exC1ops : List (InsOp Nat) :=
  [⟨[10,0,0,0], [255,0,0,0], some 0, false⟩,
   ⟨[10,1,0,0], [255,255,0,0], some 1, false⟩]

/-- A mixed sequence of the four public mutating calls, all with non-nil
inserted values. -/
def exC8ops : List (AnyOp Nat) :=
  [AnyOp.ins [10,0,0,0] [255,0,0,0] (some 1) false,
   AnyOp.ins [10,1,0,0] [255,255,0,0] (some 2) true,
   AnyOp.del [10,1,0,0] [255,255,0,0] false,
   AnyOp.del [10,0,0,0] [255,0,0,0] true]

/-- A single Add carrying a nil value. -/
def exC8bad : List (AnyOp Nat) :=
  [AnyOp.ins [10,0,0,0] [255,0,0,0] none false]

/-- State with 10.0.0.0/8 mapped to 0, before a nil-valued insert. -/
def exC10a : Tree Nat :=
  afterInsert freshRoot [10,0,0,0] [255,0,0,0] (some 0) false

/-- The previous state after Add(10.1.5.5/32, nil). -/
def exC10b : Tree Nat :=
  afterInsert exC10a [10,1,5,5] [255,255,255,255] none false

/-- State with 10.0.0.0/16 mapped to 5; the 10.0.0.0/8 node path exists but
holds no value. -/
def exC10w : Tree Nat :=
  afterInsert freshRoot [10,0,0,0] [255,255,0,0] (some 5) false

/-! ### Basic lemmas -/

theorem byteBits_length (b : Nat) : (byteBits b).length = 8 := rfl

theorem toBits_nil : toBits [] = [] := rfl

theorem toBits_cons (b : Nat) (bs : List Nat) :
    toBits (b :: bs) = byteBits b ++ toBits bs := rfl

theorem toBits_length (bs : List Nat) : (toBits bs).length = 8 * bs.length := by
  induction bs with
  | nil => rfl
  | cons b bs ih =>
      rw [toBits_cons, List.length_append, byteBits_length, ih, List.length_cons]
      ring

theorem toBits_ne_nil {bs : List Nat} (h : bs ≠ []) : toBits bs ≠ [] := by
  intro hc
  have := toBits_length bs
  rw [hc] at this
  cases bs with
  | nil => exact h rfl
  | cons b bs => simp [List.length_cons] at this

theorem byteBits_255 : byteBits 255 = List.replicate 8 true := rfl

theorem toBits_replicate255 (n : Nat) :
    toBits (List.replicate n 255) = List.replicate (8 * n) true := by
  induction n with
  | zero => rfl
  | succ n ih =>
      rw [List.replicate_succ, toBits_cons, byteBits_255, ih,
        ← List.replicate_add]
      congr 1
      ring

theorem orO_some {V : Type} (v : V) (y : Option V) : orO (some v) y = some v := rfl

theorem orO_none {V : Type} (y : Option V) : orO none y = y := rfl

theorem orO_none_right {V : Type} (x : Option V) : orO x none = x := by
  cases x <;> rfl

theorem orO_assoc {V : Type} (x y z : Option V) :
    orO (orO x y) z = orO x (orO y z) := by
  cases x <;> cases y <;> rfl

theorem isNil_iff {V : Type} {t : Tree V} : t.isNil = true ↔ t = Tree.nil := by
  cases t <;> simp [Tree.isNil]

theorem valueAt_nil {V : Type} (p : List Bool) :
    valueAt (Tree.nil : Tree V) p = none := by
  cases p <;> rfl

theorem subtreeAt_nil {V : Type} (p : List Bool) :
    subtreeAt (Tree.nil : Tree V) p = Tree.nil := by
  cases p <;> rfl

theorem subtreeAt_nil_path {V : Type} (t : Tree V) : subtreeAt t [] = t := by
  cases t <;> rfl

theorem valueAt_node_cons {V : Type} (l r : Tree V) (v : Option V) (b : Bool)
    (p : List Bool) :
    valueAt (Tree.node l r v) (b :: p) = valueAt (if b then r else l) p := rfl

theorem subtreeAt_node_cons {V : Type} (l r : Tree V) (v : Option V) (b : Bool)
    (p : List Bool) :
    subtreeAt (Tree.node l r v) (b :: p) = subtreeAt (if b then r else l) p := rfl

theorem valueAt_eq_rootVal {V : Type} (t : Tree V) (p : List Bool) :
    valueAt t p = rootVal (subtreeAt t p) := by
  induction p generalizing t with
  | nil => cases t <;> rfl
  | cons b p ih =>
      cases t with
      | nil => rw [valueAt_nil, subtreeAt_nil]; rfl
      | node l r v => rw [valueAt_node_cons, subtreeAt_node_cons, ih]

theorem subtreeAt_append {V : Type} (t : Tree V) (p q : List Bool) :
    subtreeAt t (p ++ q) = subtreeAt (subtreeAt t p) q := by
  induction p generalizing t with
  | nil => rw [List.nil_append, subtreeAt_nil_path]
  | cons b p ih =>
      cases t with
      | nil => simp [subtreeAt_nil]
      | node l r v =>
          rw [List.cons_append, subtreeAt_node_cons, subtreeAt_node_cons, ih]

theorem valueAt_freshRoot {V : Type} (p : List Bool) :
    valueAt (freshRoot : Tree V) p = none := by
  cases p with
  | nil => rfl
  | cons b p =>
      rw [freshRoot, valueAt_node_cons]
      cases b <;> simp <;> rw [valueAt_nil]

theorem maskedPath_nil_left (mb : List Bool) : maskedPath [] mb = [] := by
  cases mb <;> rfl

theorem maskedPath_nil_right (kb : List Bool) : maskedPath kb [] = [] := by
  cases kb <;> rfl

theorem maskedPath_cons (k : Bool) (mh : Bool) (kb mb : List Bool) :
    maskedPath (k :: kb) (mh :: mb) =
      if mh then k :: maskedPath kb mb else [] := by
  cases mh <;> rfl

theorem maskedPath_length_le (kb mb : List Bool) :
    (maskedPath kb mb).length ≤ kb.length := by
  induction kb generalizing mb with
  | nil => rw [maskedPath_nil_left]
  | cons k kb ih =>
      cases mb with
      | nil => rw [maskedPath_nil_right]; simp
      | cons mh mb =>
          rw [maskedPath_cons]
          cases mh with
          | false => simp
          | true =>
              rw [if_pos rfl, List.length_cons, List.length_cons]
              exact Nat.succ_le_succ (ih mb)

/-! ### Longest-prefix-match characterization -/

theorem lpmWalk_congr {V : Type} {m m2 : List Bool → Option V} (p : List Bool)
    (h : ∀ q, m q = m2 q) : lpmWalk m p = lpmWalk m2 p := by
  induction p generalizing m m2 with
  | nil => rw [lpmWalk, lpmWalk, h]
  | cons b p ih =>
      rw [lpmWalk, lpmWalk, h, ih (fun q => h (b :: q))]

theorem lpmWalk_none_iff {V : Type} (m : List Bool → Option V) (p : List Bool) :
    lpmWalk m p = none ↔ ∀ i, i ≤ p.length → m (p.take i) = none := by
  induction p generalizing m with
  | nil =>
      rw [lpmWalk]
      constructor
      · intro h i hi
        have hi0 : i = 0 := by simp at hi; omega
        subst hi0
        simpa using h
      · intro h
        simpa using h 0 (Nat.le_refl 0)
  | cons b p ih =>
      rw [lpmWalk]
      constructor
      · intro h i hi
        have hx : lpmWalk (fun q => m (b :: q)) p = none ∧ m [] = none := by
          cases hX : lpmWalk (fun q => m (b :: q)) p with
          | some w => rw [hX, orO_some] at h; exact absurd h (by simp)
          | none => rw [hX, orO_none] at h; exact ⟨rfl, h⟩
        match i, hi with
        | 0, _ => simpa using hx.2
        | j + 1, hj =>
            have := (ih (fun q => m (b :: q))).mp hx.1 j (by
              rw [List.length_cons] at hj; omega)
            simpa using this
      · intro h
        have h0 : m [] = none := by simpa using h 0 (Nat.zero_le _)
        have hX : lpmWalk (fun q => m (b :: q)) p = none :=
          (ih (fun q => m (b :: q))).mpr (fun j hj => by
            have := h (j + 1) (by rw [List.length_cons]; omega)
            simpa using this)
        rw [hX, orO_none, h0]

theorem lpmWalk_some_iff {V : Type} (m : List Bool → Option V) (p : List Bool)
    (v : V) :
    lpmWalk m p = some v ↔
      ∃ i, i ≤ p.length ∧ m (p.take i) = some v ∧
        ∀ j, i < j → j ≤ p.length → m (p.take j) = none := by
  induction p generalizing m with
  | nil =>
      rw [lpmWalk]
      constructor
      · intro h
        refine ⟨0, Nat.zero_le _, by simpa using h, ?_⟩
        intro j hj hj2
        simp at hj2
        omega
      · rintro ⟨i, hi, hm, -⟩
        have hi0 : i = 0 := by simp at hi; omega
        subst hi0
        simpa using hm
  | cons b p ih =>
      rw [lpmWalk]
      constructor
      · intro h
        cases hX : lpmWalk (fun q => m (b :: q)) p with
        | some w =>
            rw [hX, orO_some] at h
            obtain ⟨i, hi, hm, hnone⟩ := (ih (fun q => m (b :: q))).mp (hX.trans (by rw [h]))
            refine ⟨i + 1, by rw [List.length_cons]; omega, by simpa using hm, ?_⟩
            intro j hj hj2
            match j, hj with
            | j + 1, hj =>
                have := hnone j (by omega) (by rw [List.length_cons] at hj2; omega)
                simpa using this
        | none =>
            rw [hX, orO_none] at h
            refine ⟨0, Nat.zero_le _, by simpa using h, ?_⟩
            intro j hj hj2
            match j, hj with
            | j + 1, _ =>
                have := (lpmWalk_none_iff (fun q => m (b :: q)) p).mp hX j
                  (by rw [List.length_cons] at hj2; omega)
                simpa using this
      · rintro ⟨i, hi, hm, hnone⟩
        match i with
        | 0 =>
            have hX : lpmWalk (fun q => m (b :: q)) p = none := by
              refine (lpmWalk_none_iff (fun q => m (b :: q)) p).mpr ?_
              intro j hj
              have := hnone (j + 1) (by omega) (by rw [List.length_cons]; omega)
              simpa using this
            rw [hX, orO_none]
            simpa using hm
        | i + 1 =>
            have hX : lpmWalk (fun q => m (b :: q)) p = some v := by
              refine (ih (fun q => m (b :: q))).mpr ⟨i, ?_, by simpa using hm, ?_⟩
              · rw [List.length_cons] at hi; omega
              · intro j hj hj2
                have := hnone (j + 1) (by omega) (by rw [List.length_cons]; omega)
                simpa using this
            rw [hX, orO_some]

/-! ### Insert lemmas -/

theorem insertBits_nilT {V : Type} (kb mb : List Bool) (w : Option V) (ow : Bool) :
    insertBits (Tree.nil : Tree V) kb mb w ow = InsOut.panicked := by
  cases kb <;> rfl

theorem insertBits_of_maskedPath_nil {V : Type} (l r : Tree V) (v : Option V)
    {kb mb : List Bool} (w : Option V) (ow : Bool) (h : maskedPath kb mb = []) :
    insertBits (Tree.node l r v) kb mb w ow =
      if v.isSome && !ow then InsOut.nodeBusy else InsOut.ok (Tree.node l r w) := by
  cases kb with
  | nil => rfl
  | cons k kb =>
      cases mb with
      | nil => rfl
      | cons mh mb =>
          cases mh with
          | false => rfl
          | true => rw [maskedPath_cons, if_pos rfl] at h; cases h

theorem insertBits_step {V : Type} (l r : Tree V) (v : Option V) (k : Bool)
    (kb mb : List Bool) (w : Option V) (ow : Bool) :
    insertBits (Tree.node l r v) (k :: kb) (true :: mb) w ow =
      match (if k then r else l) with
      | Tree.nil =>
          InsOut.ok (if k then Tree.node l (buildChain kb mb w) v
                     else Tree.node (buildChain kb mb w) r v)
      | c =>
          match insertBits c kb mb w ow with
          | InsOut.ok c2 =>
              InsOut.ok (if k then Tree.node l c2 v else Tree.node c2 r v)
          | e => e := rfl

theorem buildChain_catch {V : Type} (kb mb : List Bool) (w : Option V)
    (h : maskedPath kb mb = []) :
    buildChain kb mb w = Tree.node Tree.nil Tree.nil w := by
  cases kb with
  | nil => rfl
  | cons k kb =>
      cases mb with
      | nil => rfl
      | cons mh mb =>
          cases mh with
          | false => rfl
          | true => rw [maskedPath_cons, if_pos rfl] at h; cases h

theorem buildChain_cons {V : Type} (k : Bool) (kb mb : List Bool) (w : Option V) :
    buildChain (k :: kb) (true :: mb) w =
      if k then Tree.node Tree.nil (buildChain kb mb w) none
      else Tree.node (buildChain kb mb w) Tree.nil none := rfl

theorem buildChain_isNil {V : Type} (kb mb : List Bool) (w : Option V) :
    (buildChain kb mb w).isNil = false := by
  cases kb with
  | nil => rfl
  | cons k kb =>
      cases mb with
      | nil => rfl
      | cons mh mb =>
          cases mh with
          | false => rfl
          | true => rw [buildChain_cons]; cases k <;> rfl

theorem buildChain_val {V : Type} (kb mb : List Bool) (w : Option V)
    (p : List Bool) :
    valueAt (buildChain kb mb w) p = if p = maskedPath kb mb then w else none := by
  induction kb generalizing mb p with
  | nil =>
      rw [buildChain_catch _ _ _ (maskedPath_nil_left mb), maskedPath_nil_left]
      cases p with
      | nil => simp [valueAt]
      | cons c p => cases c <;> simp [valueAt_node_cons, valueAt_nil]
  | cons k kb ih =>
      have hcatch : maskedPath (k :: kb) mb = [] →
          valueAt (buildChain (k :: kb) mb w) p =
            if p = maskedPath (k :: kb) mb then w else none := by
        intro h
        rw [buildChain_catch _ _ _ h, h]
        cases p with
        | nil => simp [valueAt]
        | cons c p => cases c <;> simp [valueAt_node_cons, valueAt_nil]
      cases mb with
      | nil => exact hcatch (maskedPath_nil_right _)
      | cons mh mb =>
          cases mh with
          | false => exact hcatch (by rw [maskedPath_cons]; simp)
          | true =>
              rw [buildChain_cons, maskedPath_cons, if_pos rfl]
              cases p with
              | nil => cases k <;> simp [valueAt]
              | cons c p =>
                  cases k <;> cases c <;>
                    simp [valueAt_node_cons, valueAt_nil, ih]

theorem buildChain_bv {V : Type} (kb mb : List Bool) (x : V) :
    bvB (buildChain kb mb (some x)) kb.length = true := by
  induction kb generalizing mb with
  | nil => rfl
  | cons k kb ih =>
      have hcatch : buildChain (k :: kb) mb (some x) =
          Tree.node Tree.nil Tree.nil (some x) →
          bvB (buildChain (k :: kb) mb (some x)) (k :: kb).length = true := by
        intro h
        rw [h, List.length_cons, bvB]
        simp [bvB]
      cases mb with
      | nil => exact hcatch (buildChain_catch _ _ _ (maskedPath_nil_right _))
      | cons mh mb =>
          cases mh with
          | false =>
              exact hcatch (buildChain_catch _ _ _ (by rw [maskedPath_cons]; simp))
          | true =>
              rw [buildChain_cons, List.length_cons]
              cases k with
              | false => rw [if_neg (by simp), bvB]; simp [bvB, ih]
              | true => rw [if_pos rfl, bvB]; simp [bvB, ih]

theorem buildChain_noE {V : Type} (kb mb : List Bool) (x : V) :
    noE (buildChain kb mb (some x)) = true := by
  induction kb generalizing mb with
  | nil => rfl
  | cons k kb ih =>
      have hcatch : buildChain (k :: kb) mb (some x) =
          Tree.node Tree.nil Tree.nil (some x) →
          noE (buildChain (k :: kb) mb (some x)) = true := by
        intro h
        rw [h, noE]
        rfl
      cases mb with
      | nil => exact hcatch (buildChain_catch _ _ _ (maskedPath_nil_right _))
      | cons mh mb =>
          cases mh with
          | false =>
              exact hcatch (buildChain_catch _ _ _ (by rw [maskedPath_cons]; simp))
          | true =>
              rw [buildChain_cons]
              cases k with
              | false =>
                  rw [if_neg (by simp), noE]
                  simp [noE, ih, buildChain_isNil]
              | true =>
                  rw [if_pos rfl, noE]
                  simp [noE, ih, buildChain_isNil]

theorem insStep_ok {V : Type} (c2 : Tree V) (mk : Tree V → Tree V) :
    insStep (InsOut.ok c2) mk = InsOut.ok (mk c2) := rfl

theorem insertBits_cons_true_nil {V : Type} (l : Tree V) (v : Option V)
    (kb mb : List Bool) (w : Option V) (ow : Bool) :
    insertBits (Tree.node l Tree.nil v) (true :: kb) (true :: mb) w ow =
      InsOut.ok (Tree.node l (buildChain kb mb w) v) := rfl

theorem insertBits_cons_false_nil {V : Type} (r : Tree V) (v : Option V)
    (kb mb : List Bool) (w : Option V) (ow : Bool) :
    insertBits (Tree.node Tree.nil r v) (false :: kb) (true :: mb) w ow =
      InsOut.ok (Tree.node (buildChain kb mb w) r v) := rfl

theorem insertBits_cons_true_node {V : Type} (l rl rr : Tree V)
    (rv v : Option V) (kb mb : List Bool) (w : Option V) (ow : Bool) :
    insertBits (Tree.node l (Tree.node rl rr rv) v) (true :: kb) (true :: mb) w ow =
      insStep (insertBits (Tree.node rl rr rv) kb mb w ow)
        (fun c2 => Tree.node l c2 v) := rfl

theorem insertBits_cons_false_node {V : Type} (ll lr r : Tree V)
    (lv v : Option V) (kb mb : List Bool) (w : Option V) (ow : Bool) :
    insertBits (Tree.node (Tree.node ll lr lv) r v) (false :: kb) (true :: mb) w ow =
      insStep (insertBits (Tree.node ll lr lv) kb mb w ow)
        (fun c2 => Tree.node c2 r v) := rfl

theorem insertBits_target_ok {V : Type} {l r : Tree V} {v : Option V}
    {kb mb : List Bool} {w : Option V} {ow : Bool} {t2 : Tree V}
    (hmp : maskedPath kb mb = [])
    (h : insertBits (Tree.node l r v) kb mb w ow = InsOut.ok t2) :
    t2 = Tree.node l r w := by
  rw [insertBits_of_maskedPath_nil l r v w ow hmp] at h
  cases hv : (v.isSome && !ow) with
  | true => rw [hv, if_pos rfl] at h; cases h
  | false =>
      rw [hv] at h
      simp only [Bool.false_eq_true, if_false] at h
      cases h
      rfl

theorem valueAt_set_root {V : Type} (l r : Tree V) (v w : Option V)
    (p : List Bool) :
    valueAt (Tree.node l r w) p =
      if p = [] then w else valueAt (Tree.node l r v) p := by
  cases p with
  | nil => simp [valueAt]
  | cons c p => simp [valueAt_node_cons]

theorem valueAt_graft_left {V : Type} (l l2 r : Tree V) (v : Option V)
    (tgt : List Bool) (w : Option V)
    (hrepl : ∀ q, valueAt l2 q = if q = tgt then w else valueAt l q)
    (p : List Bool) :
    valueAt (Tree.node l2 r v) p =
      if p = false :: tgt then w else valueAt (Tree.node l r v) p := by
  cases p with
  | nil => simp [valueAt]
  | cons c p => cases c <;> simp [valueAt_node_cons, hrepl]

theorem valueAt_graft_right {V : Type} (l r r2 : Tree V) (v : Option V)
    (tgt : List Bool) (w : Option V)
    (hrepl : ∀ q, valueAt r2 q = if q = tgt then w else valueAt r q)
    (p : List Bool) :
    valueAt (Tree.node l r2 v) p =
      if p = true :: tgt then w else valueAt (Tree.node l r v) p := by
  cases p with
  | nil => simp [valueAt]
  | cons c p => cases c <;> simp [valueAt_node_cons, hrepl]

theorem insertBits_ok_valueAt {V : Type} {t t2 : Tree V} {kb mb : List Bool}
    {w : Option V} {ow : Bool}
    (h : insertBits t kb mb w ow = InsOut.ok t2) (p : List Bool) :
    valueAt t2 p = if p = maskedPath kb mb then w else valueAt t p := by
  induction kb generalizing t t2 mb p with
  | nil =>
      cases t with
      | nil => rw [insertBits_nilT] at h; cases h
      | node l r v =>
          have ht2 := insertBits_target_ok (maskedPath_nil_left mb) h
          subst ht2
          rw [maskedPath_nil_left]
          exact valueAt_set_root l r v w p
  | cons k kb ih =>
      cases t with
      | nil => rw [insertBits_nilT] at h; cases h
      | node l r v =>
          rcases mb with _ | ⟨mh, mb⟩
          · have ht2 := insertBits_target_ok (maskedPath_nil_right _) h
            subst ht2
            rw [maskedPath_nil_right]
            exact valueAt_set_root l r v w p
          · cases mh with
            | false =>
                have ht2 := insertBits_target_ok
                  (by rw [maskedPath_cons]; simp) h
                subst ht2
                rw [maskedPath_cons]
                simp only [Bool.false_eq_true, if_false]
                exact valueAt_set_root l r v w p
            | true =>
                rw [maskedPath_cons, if_pos rfl]
                cases k with
                | false =>
                    cases hl : l with
                    | nil =>
                        subst hl
                        rw [insertBits_cons_false_nil] at h
                        cases h
                        exact valueAt_graft_left _ _ r v _ w
                          (fun q => by rw [buildChain_val, valueAt_nil]) p
                    | node ll lr lv =>
                        subst hl
                        rw [insertBits_cons_false_node] at h
                        cases hrec : insertBits (Tree.node ll lr lv) kb mb w ow with
                        | ok c2 =>
                            rw [hrec, insStep_ok] at h
                            cases h
                            exact valueAt_graft_left _ _ r v _ w
                              (fun q => ih hrec q) p
                        | nodeBusy => rw [hrec] at h; cases h
                        | badIP => rw [hrec] at h; cases h
                        | panicked => rw [hrec] at h; cases h
                | true =>
                    cases hr : r with
                    | nil =>
                        subst hr
                        rw [insertBits_cons_true_nil] at h
                        cases h
                        exact valueAt_graft_right l _ _ v _ w
                          (fun q => by rw [buildChain_val, valueAt_nil]) p
                    | node rl rr rv =>
                        subst hr
                        rw [insertBits_cons_true_node] at h
                        cases hrec : insertBits (Tree.node rl rr rv) kb mb w ow with
                        | ok c2 =>
                            rw [hrec, insStep_ok] at h
                            cases h
                            exact valueAt_graft_right l _ _ v _ w
                              (fun q => ih hrec q) p
                        | nodeBusy => rw [hrec] at h; cases h
                        | badIP => rw [hrec] at h; cases h
                        | panicked => rw [hrec] at h; cases h

theorem insertBits_ok_isNil {V : Type} {t t2 : Tree V} {kb mb : List Bool}
    {w : Option V} {ow : Bool}
    (h : insertBits t kb mb w ow = InsOut.ok t2) : t2.isNil = false := by
  induction kb generalizing t t2 mb with
  | nil =>
      cases t with
      | nil => rw [insertBits_nilT] at h; cases h
      | node l r v =>
          have ht2 := insertBits_target_ok (maskedPath_nil_left mb) h
          subst ht2; rfl
  | cons k kb ih =>
      cases t with
      | nil => rw [insertBits_nilT] at h; cases h
      | node l r v =>
          rcases mb with _ | ⟨mh, mb⟩
          · have ht2 := insertBits_target_ok (maskedPath_nil_right _) h
            subst ht2; rfl
          · cases mh with
            | false =>
                have ht2 := insertBits_target_ok
                  (by rw [maskedPath_cons]; simp) h
                subst ht2; rfl
            | true =>
                cases k with
                | false =>
                    cases hl : l with
                    | nil =>
                        subst hl
                        rw [insertBits_cons_false_nil] at h
                        cases h; rfl
                    | node ll lr lv =>
                        subst hl
                        rw [insertBits_cons_false_node] at h
                        cases hrec : insertBits (Tree.node ll lr lv) kb mb w ow with
                        | ok c2 => rw [hrec, insStep_ok] at h; cases h; rfl
                        | nodeBusy => rw [hrec] at h; cases h
                        | badIP => rw [hrec] at h; cases h
                        | panicked => rw [hrec] at h; cases h
                | true =>
                    cases hr : r with
                    | nil =>
                        subst hr
                        rw [insertBits_cons_true_nil] at h
                        cases h; rfl
                    | node rl rr rv =>
                        subst hr
                        rw [insertBits_cons_true_node] at h
                        cases hrec : insertBits (Tree.node rl rr rv) kb mb w ow with
                        | ok c2 => rw [hrec, insStep_ok] at h; cases h; rfl
                        | nodeBusy => rw [hrec] at h; cases h
                        | badIP => rw [hrec] at h; cases h
                        | panicked => rw [hrec] at h; cases h

theorem insertBits_busy_of_some {V : Type} {t : Tree V} {kb mb : List Bool}
    {w : Option V}
    (hnil : t.isNil = false)
    (hsome : (valueAt t (maskedPath kb mb)).isSome = true) :
    insertBits t kb mb w false = InsOut.nodeBusy := by
  induction kb generalizing t mb with
  | nil =>
      cases t with
      | nil => simp [Tree.isNil] at hnil
      | node l r v =>
          rw [maskedPath_nil_left] at hsome
          simp only [valueAt] at hsome
          rw [insertBits_of_maskedPath_nil l r v w false (maskedPath_nil_left mb)]
          simp [hsome]
  | cons k kb ih =>
      cases t with
      | nil => simp [Tree.isNil] at hnil
      | node l r v =>
          rcases mb with _ | ⟨mh, mb⟩
          · rw [maskedPath_nil_right] at hsome
            simp only [valueAt] at hsome
            rw [insertBits_of_maskedPath_nil l r v w false (maskedPath_nil_right _)]
            simp [hsome]
          · cases mh with
            | false =>
                rw [maskedPath_cons] at hsome
                simp only [Bool.false_eq_true, if_false, valueAt] at hsome
                rw [insertBits_of_maskedPath_nil l r v w false
                  (by rw [maskedPath_cons]; simp)]
                simp [hsome]
            | true =>
                rw [maskedPath_cons, if_pos rfl, valueAt_node_cons] at hsome
                cases k with
                | false =>
                    simp only [Bool.false_eq_true, if_false] at hsome
                    cases hl : l with
                    | nil => rw [hl, valueAt_nil] at hsome; cases hsome
                    | node ll lr lv =>
                        subst hl
                        rw [insertBits_cons_false_node,
                          @ih (Tree.node ll lr lv) mb rfl hsome]
                        rfl
                | true =>
                    simp only [if_pos] at hsome
                    cases hr : r with
                    | nil => rw [hr, valueAt_nil] at hsome; cases hsome
                    | node rl rr rv =>
                        subst hr
                        rw [insertBits_cons_true_node,
                          @ih (Tree.node rl rr rv) mb rfl hsome]
                        rfl

theorem insertBits_ok_exists {V : Type} {t : Tree V} {kb mb : List Bool}
    {w : Option V} {ow : Bool}
    (hnil : t.isNil = false)
    (hok : ow = true ∨ valueAt t (maskedPath kb mb) = none) :
    ∃ t2, insertBits t kb mb w ow = InsOut.ok t2 := by
  induction kb generalizing t mb with
  | nil =>
      cases t with
      | nil => simp [Tree.isNil] at hnil
      | node l r v =>
          rw [insertBits_of_maskedPath_nil l r v w ow (maskedPath_nil_left mb)]
          have hcond : (v.isSome && !ow) = false := by
            rcases hok with how | hval
            · rw [how]; simp
            · rw [maskedPath_nil_left] at hval
              simp only [valueAt] at hval
              rw [hval]; simp
          rw [hcond]
          exact ⟨Tree.node l r w, by simp⟩
  | cons k kb ih =>
      cases t with
      | nil => simp [Tree.isNil] at hnil
      | node l r v =>
          have htarget : maskedPath (k :: kb) mb = [] →
              ∃ t2, insertBits (Tree.node l r v) (k :: kb) mb w ow = InsOut.ok t2 := by
            intro hmp
            rw [insertBits_of_maskedPath_nil l r v w ow hmp]
            have hcond : (v.isSome && !ow) = false := by
              rcases hok with how | hval
              · rw [how]; simp
              · rw [hmp] at hval
                simp only [valueAt] at hval
                rw [hval]; simp
            rw [hcond]
            exact ⟨Tree.node l r w, by simp⟩
          rcases mb with _ | ⟨mh, mb⟩
          · exact htarget (maskedPath_nil_right _)
          · cases mh with
            | false => exact htarget (by rw [maskedPath_cons]; simp)
            | true =>
                have hok2 : ow = true ∨
                    valueAt (if k then r else l) (maskedPath kb mb) = none := by
                  rcases hok with how | hval
                  · exact Or.inl how
                  · rw [maskedPath_cons, if_pos rfl, valueAt_node_cons] at hval
                    exact Or.inr hval
                cases k with
                | false =>
                    cases hl : l with
                    | nil =>
                        subst hl
                        exact ⟨_, insertBits_cons_false_nil r v kb mb w ow⟩
                    | node ll lr lv =>
                        subst hl
                        simp only [Bool.false_eq_true, if_false] at hok2
                        obtain ⟨c2, hrec⟩ := @ih (Tree.node ll lr lv) mb rfl hok2
                        exact ⟨Tree.node c2 r v,
                          by rw [insertBits_cons_false_node, hrec, insStep_ok]⟩
                | true =>
                    cases hr : r with
                    | nil =>
                        subst hr
                        exact ⟨_, insertBits_cons_true_nil l v kb mb w ow⟩
                    | node rl rr rv =>
                        subst hr
                        simp only [if_pos] at hok2
                        obtain ⟨c2, hrec⟩ := @ih (Tree.node rl rr rv) mb rfl hok2
                        exact ⟨Tree.node l c2 v,
                          by rw [insertBits_cons_true_node, hrec, insStep_ok]⟩

theorem insertBits_ok_bv {V : Type} {t t2 : Tree V} {kb mb : List Bool}
    {x : V} {ow : Bool}
    (h : insertBits t kb mb (some x) ow = InsOut.ok t2)
    (hbv : bvB t kb.length = true) : bvB t2 kb.length = true := by
  induction kb generalizing t t2 mb with
  | nil =>
      cases t with
      | nil => rw [insertBits_nilT] at h; cases h
      | node l r v =>
          have ht2 := insertBits_target_ok (maskedPath_nil_left mb) h
          subst ht2
          simp only [List.length_nil, bvB] at hbv ⊢
          simp only [Bool.and_eq_true] at hbv ⊢
          exact ⟨hbv.1, by simp⟩
  | cons k kb ih =>
      cases t with
      | nil => rw [insertBits_nilT] at h; cases h
      | node l r v =>
          simp only [List.length_cons, bvB, Bool.and_eq_true] at hbv
          have htgt : t2 = Tree.node l r (some x) →
              bvB t2 (k :: kb).length = true := by
            intro ht2
            subst ht2
            simp only [List.length_cons, bvB, Bool.and_eq_true]
            exact hbv
          rcases mb with _ | ⟨mh, mb⟩
          · exact htgt (insertBits_target_ok (maskedPath_nil_right _) h)
          · cases mh with
            | false =>
                exact htgt (insertBits_target_ok (by rw [maskedPath_cons]; simp) h)
            | true =>
                cases k with
                | false =>
                    cases hl : l with
                    | nil =>
                        subst hl
                        rw [insertBits_cons_false_nil] at h
                        cases h
                        simp only [List.length_cons, bvB, Bool.and_eq_true]
                        exact ⟨buildChain_bv kb mb x, hbv.2⟩
                    | node ll lr lv =>
                        subst hl
                        rw [insertBits_cons_false_node] at h
                        cases hrec : insertBits (Tree.node ll lr lv) kb mb (some x) ow with
                        | ok c2 =>
                            rw [hrec, insStep_ok] at h
                            cases h
                            simp only [List.length_cons, bvB, Bool.and_eq_true]
                            exact ⟨ih hrec hbv.1, hbv.2⟩
                        | nodeBusy => rw [hrec] at h; cases h
                        | badIP => rw [hrec] at h; cases h
                        | panicked => rw [hrec] at h; cases h
                | true =>
                    cases hr : r with
                    | nil =>
                        subst hr
                        rw [insertBits_cons_true_nil] at h
                        cases h
                        simp only [List.length_cons, bvB, Bool.and_eq_true]
                        exact ⟨hbv.1, buildChain_bv kb mb x⟩
                    | node rl rr rv =>
                        subst hr
                        rw [insertBits_cons_true_node] at h
                        cases hrec : insertBits (Tree.node rl rr rv) kb mb (some x) ow with
                        | ok c2 =>
                            rw [hrec, insStep_ok] at h
                            cases h
                            simp only [List.length_cons, bvB, Bool.and_eq_true]
                            exact ⟨hbv.1, ih hrec hbv.2⟩
                        | nodeBusy => rw [hrec] at h; cases h
                        | badIP => rw [hrec] at h; cases h
                        | panicked => rw [hrec] at h; cases h

theorem noE_node_iff {V : Type} {l r : Tree V} {v : Option V} :
    noE (Tree.node l r v) = true ↔
      (l.isNil && r.isNil && v.isNone) = false ∧ noE l = true ∧ noE r = true := by
  rw [noE]
  cases h : (l.isNil && r.isNil && v.isNone) <;> simp [h]

theorem insertBits_ok_noE {V : Type} {t t2 : Tree V} {kb mb : List Bool}
    {x : V} {ow : Bool}
    (h : insertBits t kb mb (some x) ow = InsOut.ok t2)
    (hne : noE t = true) : noE t2 = true := by
  induction kb generalizing t t2 mb with
  | nil =>
      cases t with
      | nil => rw [insertBits_nilT] at h; cases h
      | node l r v =>
          have ht2 := insertBits_target_ok (maskedPath_nil_left mb) h
          subst ht2
          rw [noE_node_iff] at hne ⊢
          exact ⟨by simp, hne.2.1, hne.2.2⟩
  | cons k kb ih =>
      cases t with
      | nil => rw [insertBits_nilT] at h; cases h
      | node l r v =>
          rw [noE_node_iff] at hne
          have htgt : t2 = Tree.node l r (some x) → noE t2 = true := by
            intro ht2
            subst ht2
            rw [noE_node_iff]
            exact ⟨by simp, hne.2.1, hne.2.2⟩
          rcases mb with _ | ⟨mh, mb⟩
          · exact htgt (insertBits_target_ok (maskedPath_nil_right _) h)
          · cases mh with
            | false =>
                exact htgt (insertBits_target_ok (by rw [maskedPath_cons]; simp) h)
            | true =>
                cases k with
                | false =>
                    cases hl : l with
                    | nil =>
                        subst hl
                        rw [insertBits_cons_false_nil] at h
                        cases h
                        rw [noE_node_iff]
                        exact ⟨by rw [buildChain_isNil]; simp,
                          buildChain_noE kb mb x, hne.2.2⟩
                    | node ll lr lv =>
                        subst hl
                        rw [insertBits_cons_false_node] at h
                        cases hrec : insertBits (Tree.node ll lr lv) kb mb (some x) ow with
                        | ok c2 =>
                            rw [hrec, insStep_ok] at h
                            cases h
                            rw [noE_node_iff]
                            exact ⟨by rw [insertBits_ok_isNil hrec]; simp,
                              ih hrec hne.2.1, hne.2.2⟩
                        | nodeBusy => rw [hrec] at h; cases h
                        | badIP => rw [hrec] at h; cases h
                        | panicked => rw [hrec] at h; cases h
                | true =>
                    cases hr : r with
                    | nil =>
                        subst hr
                        rw [insertBits_cons_true_nil] at h
                        cases h
                        rw [noE_node_iff]
                        exact ⟨by rw [buildChain_isNil]; simp,
                          hne.2.1, buildChain_noE kb mb x⟩
                    | node rl rr rv =>
                        subst hr
                        rw [insertBits_cons_true_node] at h
                        cases hrec : insertBits (Tree.node rl rr rv) kb mb (some x) ow with
                        | ok c2 =>
                            rw [hrec, insStep_ok] at h
                            cases h
                            rw [noE_node_iff]
                            exact ⟨by rw [insertBits_ok_isNil hrec]; simp,
                              hne.2.1, ih hrec hne.2.2⟩
                        | nodeBusy => rw [hrec] at h; cases h
                        | badIP => rw [hrec] at h; cases h
                        | panicked => rw [hrec] at h; cases h

theorem insertBits_ok_wellTidy {V : Type} {t t2 : Tree V} {kb mb : List Bool}
    {x : V} {ow : Bool}
    (h : insertBits t kb mb (some x) ow = InsOut.ok t2)
    (ht : wellTidy t = true) : wellTidy t2 = true := by
  cases t with
  | nil => rw [insertBits_nilT] at h; cases h
  | node l r v =>
      rw [wellTidy, Bool.and_eq_true] at ht
      have htgt : t2 = Tree.node l r (some x) → wellTidy t2 = true := by
        intro ht2
        subst ht2
        rw [wellTidy, Bool.and_eq_true]
        exact ht
      rcases kb with _ | ⟨k, kb⟩
      · exact htgt (insertBits_target_ok (maskedPath_nil_left mb) h)
      · rcases mb with _ | ⟨mh, mb⟩
        · exact htgt (insertBits_target_ok (maskedPath_nil_right _) h)
        · cases mh with
          | false =>
              exact htgt (insertBits_target_ok (by rw [maskedPath_cons]; simp) h)
          | true =>
              cases k with
              | false =>
                  cases hl : l with
                  | nil =>
                      subst hl
                      rw [insertBits_cons_false_nil] at h
                      cases h
                      rw [wellTidy, Bool.and_eq_true]
                      exact ⟨buildChain_noE kb mb x, ht.2⟩
                  | node ll lr lv =>
                      subst hl
                      rw [insertBits_cons_false_node] at h
                      cases hrec : insertBits (Tree.node ll lr lv) kb mb (some x) ow with
                      | ok c2 =>
                          rw [hrec, insStep_ok] at h
                          cases h
                          rw [wellTidy, Bool.and_eq_true]
                          exact ⟨insertBits_ok_noE hrec ht.1, ht.2⟩
                      | nodeBusy => rw [hrec] at h; cases h
                      | badIP => rw [hrec] at h; cases h
                      | panicked => rw [hrec] at h; cases h
              | true =>
                  cases hr : r with
                  | nil =>
                      subst hr
                      rw [insertBits_cons_true_nil] at h
                      cases h
                      rw [wellTidy, Bool.and_eq_true]
                      exact ⟨ht.1, buildChain_noE kb mb x⟩
                  | node rl rr rv =>
                      subst hr
                      rw [insertBits_cons_true_node] at h
                      cases hrec : insertBits (Tree.node rl rr rv) kb mb (some x) ow with
                      | ok c2 =>
                          rw [hrec, insStep_ok] at h
                          cases h
                          rw [wellTidy, Bool.and_eq_true]
                          exact ⟨ht.1, insertBits_ok_noE hrec ht.2⟩
                      | nodeBusy => rw [hrec] at h; cases h
                      | badIP => rw [hrec] at h; cases h
                      | panicked => rw [hrec] at h; cases h

/-! ### Find lemmas -/

theorem findBits_nilT {V : Type} (kb mb : List Bool) (acc : Option V) :
    findBits (Tree.nil : Tree V) kb mb acc = acc := by
  cases kb <;> rfl

theorem findBits_node_nilkb {V : Type} (l r : Tree V) (v : Option V)
    (mb : List Bool) (acc : Option V) :
    findBits (Tree.node l r v) [] mb acc = orO v acc := rfl

theorem findBits_node_nilmb {V : Type} (l r : Tree V) (v : Option V)
    (k : Bool) (kb : List Bool) (acc : Option V) :
    findBits (Tree.node l r v) (k :: kb) [] acc = orO v acc := rfl

theorem findBits_cons_maskfalse {V : Type} (l r : Tree V) (v : Option V)
    (k : Bool) (kb mb : List Bool) (acc : Option V) :
    findBits (Tree.node l r v) (k :: kb) (false :: mb) acc = orO v acc := rfl

theorem findBits_cons_last {V : Type} (l r : Tree V) (v : Option V)
    (k : Bool) (mb : List Bool) (acc : Option V) :
    findBits (Tree.node l r v) [k] (true :: mb) acc =
      match (if k then r else l) with
      | Tree.nil => orO v acc
      | Tree.node _ _ cv => cv := by
  cases k <;> rfl

theorem findBits_cons_step {V : Type} (l r : Tree V) (v : Option V)
    (k k2 : Bool) (kb mb : List Bool) (acc : Option V) :
    findBits (Tree.node l r v) (k :: k2 :: kb) (true :: mb) acc =
      findBits (if k then r else l) (k2 :: kb) mb (orO v acc) := by
  cases k <;> rfl

theorem lpmWalk_valueAt_nil {V : Type} (p : List Bool) :
    lpmWalk (valueAt (Tree.nil : Tree V)) p = none :=
  (lpmWalk_none_iff _ _).mpr (fun i _ => valueAt_nil _)

theorem lpmWalk_nil_path {V : Type} (m : List Bool → Option V) :
    lpmWalk m [] = m [] := rfl

theorem bvB_zero {V : Type} (l r : Tree V) (v : Option V) :
    bvB (Tree.node l r v) 0 = (l.isNil && r.isNil && v.isSome) := rfl

theorem lpmWalk_valueAt_node {V : Type} (l r : Tree V) (v : Option V)
    (b : Bool) (p : List Bool) :
    lpmWalk (valueAt (Tree.node l r v)) (b :: p) =
      orO (lpmWalk (valueAt (if b then r else l)) p) v := by
  rfl

theorem findBits_full {V : Type} (kb : List Bool) (t : Tree V) (acc : Option V)
    (hne : kb ≠ []) (hbv : bvB t kb.length = true) :
    findBits t kb (List.replicate kb.length true) acc =
      orO (lpmWalk (valueAt t) kb) acc := by
  induction kb generalizing t acc with
  | nil => exact absurd rfl hne
  | cons b kb ih =>
      cases t with
      | nil => rw [findBits_nilT, lpmWalk_valueAt_nil, orO_none]
      | node l r v =>
          rw [List.length_cons, List.replicate_succ, lpmWalk_valueAt_node]
          rw [List.length_cons, bvB, Bool.and_eq_true] at hbv
          rcases kb with _ | ⟨k2, kb⟩
          · rw [findBits_cons_last]
            cases b with
            | false =>
                simp only [Bool.false_eq_true, if_false]
                cases hl : l with
                | nil => rw [lpmWalk_valueAt_nil, orO_none]
                | node ll lr lv =>
                    rw [hl] at hbv
                    simp only [List.length_nil] at hbv
                    rw [bvB_zero, Bool.and_eq_true, Bool.and_eq_true] at hbv
                    obtain ⟨⟨⟨-, -⟩, hvs⟩, -⟩ := hbv
                    rw [lpmWalk_nil_path]
                    simp only [valueAt]
                    cases hw : lv with
                    | none => rw [hw] at hvs; simp at hvs
                    | some w => rw [orO_some, orO_some]
            | true =>
                simp only [if_pos]
                cases hr : r with
                | nil => rw [lpmWalk_valueAt_nil, orO_none]
                | node rl rr rv =>
                    rw [hr] at hbv
                    simp only [List.length_nil] at hbv
                    rw [bvB_zero, Bool.and_eq_true, Bool.and_eq_true] at hbv
                    obtain ⟨-, ⟨⟨-, -⟩, hvs⟩⟩ := hbv
                    rw [lpmWalk_nil_path]
                    simp only [valueAt]
                    cases hw : rv with
                    | none => rw [hw] at hvs; simp at hvs
                    | some w => rw [orO_some, orO_some]
          · rw [findBits_cons_step]
            have hbvc : bvB (if b then r else l) (k2 :: kb).length = true := by
              cases b with
              | false => simpa using hbv.1
              | true => simpa using hbv.2
            rw [ih (if b then r else l) (orO v acc) (by simp) hbvc]
            rw [orO_assoc]

theorem findBits_at {V : Type} {t : Tree V} {kb mb : List Bool} {v : V}
    (hlen : kb.length = mb.length) (hne : kb ≠ [])
    (hval : valueAt t (maskedPath kb mb) = some v) (acc : Option V) :
    findBits t kb mb acc = some v := by
  induction kb generalizing t mb acc with
  | nil => exact absurd rfl hne
  | cons b kb ih =>
      cases t with
      | nil => rw [valueAt_nil] at hval; cases hval
      | node l r w =>
          rcases mb with _ | ⟨mh, mb⟩
          · rw [List.length_cons] at hlen; simp at hlen
          · cases mh with
            | false =>
                rw [maskedPath_cons] at hval
                simp only [Bool.false_eq_true, if_false] at hval
                simp only [valueAt] at hval
                rw [findBits_cons_maskfalse, hval, orO_some]
            | true =>
                rw [maskedPath_cons, if_pos rfl, valueAt_node_cons] at hval
                rcases kb with _ | ⟨k2, kb⟩
                · rw [maskedPath_nil_left] at hval
                  rw [findBits_cons_last]
                  cases hc : (if b then r else l) with
                  | nil => rw [hc, valueAt_nil] at hval; cases hval
                  | node cl cr cv =>
                      rw [hc] at hval
                      simp only [valueAt] at hval
                      rw [hval]
                · rw [findBits_cons_step]
                  refine ih ?_ (by simp) hval (orO w acc)
                  simp only [List.length_cons] at hlen ⊢
                  omega

/-! ### Delete lemmas -/

theorem deleteBits_nilT {V : Type} (kb mb : List Bool) (sub : Bool) :
    deleteBits (Tree.nil : Tree V) kb mb sub = DelStep.notFound := by
  cases kb <;> rfl

theorem deleteBits_of_maskedPath_nil {V : Type} (l r : Tree V) (v : Option V)
    {kb mb : List Bool} (sub : Bool) (hmp : maskedPath kb mb = []) :
    deleteBits (Tree.node l r v) kb mb sub =
      if !sub && (!l.isNil || !r.isNil) then
        match v with
        | some _ => DelStep.ok (Tree.node l r none)
        | none => DelStep.notFound
      else DelStep.prune true := by
  cases kb with
  | nil => rfl
  | cons k kb =>
      cases mb with
      | nil => rfl
      | cons mh mb =>
          cases mh with
          | false => rfl
          | true => rw [maskedPath_cons, if_pos rfl] at hmp; cases hmp

theorem deleteBits_cons {V : Type} (l r : Tree V) (v : Option V) (k : Bool)
    (kb mb : List Bool) (sub : Bool) :
    deleteBits (Tree.node l r v) (k :: kb) (true :: mb) sub =
      delChild l r v k (deleteBits (if k then r else l) kb mb sub) := rfl

theorem delChild_notFound {V : Type} (l r : Tree V) (v : Option V) (k : Bool) :
    delChild l r v k DelStep.notFound = DelStep.notFound := rfl

theorem delChild_ok {V : Type} (l r : Tree V) (v : Option V) (k : Bool)
    (c : Tree V) :
    delChild l r v k (DelStep.ok c) =
      DelStep.ok (if k then Tree.node l c v else Tree.node c r v) := rfl

theorem delChild_prune {V : Type} (l r : Tree V) (v : Option V) (k : Bool)
    (b : Bool) :
    delChild l r v k (DelStep.prune b) =
      if ((if k then l else Tree.nil).isNil && (if k then Tree.nil else r).isNil
          && v.isNone) then DelStep.prune false
      else DelStep.ok (Tree.node (if k then l else Tree.nil)
        (if k then Tree.nil else r) v) := rfl

theorem deleteBits_notFound_of_nilPath {V : Type} {t : Tree V}
    {kb mb : List Bool} (sub : Bool)
    (h : subtreeAt t (maskedPath kb mb) = Tree.nil) :
    deleteBits t kb mb sub = DelStep.notFound := by
  induction kb generalizing t mb with
  | nil =>
      cases t with
      | nil => rw [deleteBits_nilT]
      | node l r v => rw [maskedPath_nil_left, subtreeAt_nil_path] at h; cases h
  | cons k kb ih =>
      cases t with
      | nil => rw [deleteBits_nilT]
      | node l r v =>
          rcases mb with _ | ⟨mh, mb⟩
          · rw [maskedPath_nil_right, subtreeAt_nil_path] at h; cases h
          · cases mh with
            | false =>
                rw [maskedPath_cons] at h
                simp only [Bool.false_eq_true, if_false] at h
                rw [subtreeAt_nil_path] at h
                cases h
            | true =>
                rw [maskedPath_cons, if_pos rfl, subtreeAt_node_cons] at h
                rw [deleteBits_cons, ih h, delChild_notFound]

theorem deleteBits_target_valueless {V : Type} (l r : Tree V)
    {kb mb : List Bool} (hmp : maskedPath kb mb = [])
    (hch : l.isNil = false ∨ r.isNil = false) :
    deleteBits (Tree.node l r none) kb mb false = DelStep.notFound := by
  rw [deleteBits_of_maskedPath_nil l r none false hmp]
  have hc : (!l.isNil || !r.isNil) = true := by
    rcases hch with h | h <;> simp [h]
  simp [hc]

theorem deleteBits_notFound_of_valueless {V : Type} {t : Tree V}
    {kb mb : List Bool} {l2 r2 : Tree V}
    (h : subtreeAt t (maskedPath kb mb) = Tree.node l2 r2 none)
    (hch : l2.isNil = false ∨ r2.isNil = false) :
    deleteBits t kb mb false = DelStep.notFound := by
  induction kb generalizing t mb with
  | nil =>
      cases t with
      | nil => rw [subtreeAt_nil] at h; cases h
      | node l r v =>
          rw [maskedPath_nil_left, subtreeAt_nil_path] at h
          cases h
          exact deleteBits_target_valueless l2 r2 (maskedPath_nil_left mb) hch
  | cons k kb ih =>
      cases t with
      | nil => rw [subtreeAt_nil] at h; cases h
      | node l r v =>
          rcases mb with _ | ⟨mh, mb⟩
          · rw [maskedPath_nil_right, subtreeAt_nil_path] at h
            cases h
            exact deleteBits_target_valueless l2 r2 (maskedPath_nil_right _) hch
          · cases mh with
            | false =>
                rw [maskedPath_cons] at h
                simp only [Bool.false_eq_true, if_false] at h
                rw [subtreeAt_nil_path] at h
                cases h
                exact deleteBits_target_valueless l2 r2
                  (by rw [maskedPath_cons]; simp) hch
            | true =>
                rw [maskedPath_cons, if_pos rfl, subtreeAt_node_cons] at h
                rw [deleteBits_cons, ih h, delChild_notFound]

theorem setValueAt_nilT {V : Type} (p : List Bool) (w : Option V) :
    setValueAt (Tree.nil : Tree V) p w = Tree.nil := by
  cases p <;> rfl

theorem bvB_nil {V : Type} (n : Nat) : bvB (Tree.nil : Tree V) n = true := by
  cases n <;> rfl

theorem setValueAt_nil_path {V : Type} (l r : Tree V) (v w : Option V) :
    setValueAt (Tree.node l r v) [] w = Tree.node l r w := rfl

theorem setValueAt_cons {V : Type} (l r : Tree V) (v w : Option V) (b : Bool)
    (p : List Bool) :
    setValueAt (Tree.node l r v) (b :: p) w =
      if b then Tree.node l (setValueAt r p w) v
      else Tree.node (setValueAt l p w) r v := rfl

theorem deleteBits_clear {V : Type} {t : Tree V} {kb mb : List Bool}
    {l2 r2 : Tree V} {a : V}
    (h : subtreeAt t (maskedPath kb mb) = Tree.node l2 r2 (some a))
    (hch : l2.isNil = false ∨ r2.isNil = false) :
    deleteBits t kb mb false =
      DelStep.ok (setValueAt t (maskedPath kb mb) none) := by
  induction kb generalizing t mb with
  | nil =>
      cases t with
      | nil => rw [subtreeAt_nil] at h; cases h
      | node l r v =>
          rw [maskedPath_nil_left, subtreeAt_nil_path] at h
          cases h
          rw [maskedPath_nil_left, setValueAt_nil_path,
            deleteBits_of_maskedPath_nil l2 r2 (some a) false (maskedPath_nil_left mb)]
          have hc : (!l2.isNil || !r2.isNil) = true := by
            rcases hch with hcc | hcc <;> simp [hcc]
          simp [hc]
  | cons k kb ih =>
      cases t with
      | nil => rw [subtreeAt_nil] at h; cases h
      | node l r v =>
          have htgt : maskedPath (k :: kb) mb = [] →
              subtreeAt (Tree.node l r v) (maskedPath (k :: kb) mb) =
                Tree.node l2 r2 (some a) →
              deleteBits (Tree.node l r v) (k :: kb) mb false =
                DelStep.ok (setValueAt (Tree.node l r v)
                  (maskedPath (k :: kb) mb) none) := by
            intro hmp hsub
            rw [hmp, subtreeAt_nil_path] at hsub
            cases hsub
            rw [hmp, setValueAt_nil_path,
              deleteBits_of_maskedPath_nil l2 r2 (some a) false hmp]
            have hc : (!l2.isNil || !r2.isNil) = true := by
              rcases hch with hcc | hcc <;> simp [hcc]
            simp [hc]
          rcases mb with _ | ⟨mh, mb⟩
          · exact htgt (maskedPath_nil_right _) h
          · cases mh with
            | false => exact htgt (by rw [maskedPath_cons]; simp) h
            | true =>
                rw [maskedPath_cons, if_pos rfl] at h ⊢
                rw [subtreeAt_node_cons] at h
                rw [deleteBits_cons, ih h, delChild_ok, setValueAt_cons]
                cases k with
                | false => simp
                | true => simp

theorem valueAt_setValueAt {V : Type} {t : Tree V} {p : List Bool}
    (w : Option V)
    (hsub : (subtreeAt t p).isNil = false) (q : List Bool) :
    valueAt (setValueAt t p w) q = if q = p then w else valueAt t q := by
  induction p generalizing t q with
  | nil =>
      cases t with
      | nil => rw [subtreeAt_nil_path] at hsub; simp [Tree.isNil] at hsub
      | node l r v =>
          rw [setValueAt_nil_path]
          exact valueAt_set_root l r v w q
  | cons b p ih =>
      cases t with
      | nil => rw [subtreeAt_nil] at hsub; simp [Tree.isNil] at hsub
      | node l r v =>
          rw [subtreeAt_node_cons] at hsub
          rw [setValueAt_cons]
          cases b with
          | false =>
              simp only [Bool.false_eq_true, if_false] at hsub ⊢
              cases q with
              | nil => simp [valueAt]
              | cons c q =>
                  cases c <;> simp [valueAt_node_cons, ih hsub]
          | true =>
              simp only [if_pos] at hsub ⊢
              cases q with
              | nil => simp [valueAt]
              | cons c q =>
                  cases c <;> simp [valueAt_node_cons, ih hsub]

theorem bvB_setValueAt {V : Type} {t : Tree V} {p : List Bool} (w : Option V)
    {n : Nat} (hlt : p.length < n) (hbv : bvB t n = true) :
    bvB (setValueAt t p w) n = true := by
  induction p generalizing t n with
  | nil =>
      cases t with
      | nil => rw [setValueAt_nilT, bvB_nil]
      | node l r v =>
          rcases n with _ | n
          · simp at hlt
          · rw [setValueAt_nil_path] at *
            rw [bvB] at hbv ⊢
            exact hbv
  | cons b p ih =>
      cases t with
      | nil => rw [setValueAt_nilT, bvB_nil]
      | node l r v =>
          rcases n with _ | n
          · simp at hlt
          · rw [setValueAt_cons]
            rw [bvB, Bool.and_eq_true] at hbv
            have hlt2 : p.length < n := by
              simp only [List.length_cons] at hlt; omega
            cases b with
            | false =>
                simp only [Bool.false_eq_true, if_false]
                rw [bvB, Bool.and_eq_true]
                exact ⟨ih hlt2 hbv.1, hbv.2⟩
            | true =>
                simp only [if_pos]
                rw [bvB, Bool.and_eq_true]
                exact ⟨hbv.1, ih hlt2 hbv.2⟩

theorem isNil_setValueAt {V : Type} (t : Tree V) (p : List Bool)
    (w : Option V) : (setValueAt t p w).isNil = t.isNil := by
  cases t with
  | nil => cases p <;> rfl
  | node l r v =>
      cases p with
      | nil => rfl
      | cons b p => rw [setValueAt_cons]; cases b <;> rfl

theorem noE_nil {V : Type} : noE (Tree.nil : Tree V) = true := rfl

theorem isNil_nilL {V : Type} : (Tree.nil : Tree V).isNil = true := rfl

theorem delChild_prune_false {V : Type} (l r : Tree V) (v : Option V) (b : Bool) :
    delChild l r v false (DelStep.prune b) =
      if (r.isNil && v.isNone) then DelStep.prune false
      else DelStep.ok (Tree.node Tree.nil r v) := by
  rw [delChild_prune]
  simp only [Bool.false_eq_true, if_false, isNil_nilL, Bool.true_and]

theorem delChild_prune_true {V : Type} (l r : Tree V) (v : Option V) (b : Bool) :
    delChild l r v true (DelStep.prune b) =
      if (l.isNil && v.isNone) then DelStep.prune false
      else DelStep.ok (Tree.node l Tree.nil v) := by
  rw [delChild_prune]
  simp only [if_pos, isNil_nilL, Bool.and_true]

theorem deleteBits_target_ok {V : Type} {l r : Tree V} {v : Option V}
    {kb mb : List Bool} {sub : Bool} {t2 : Tree V}
    (hmp : maskedPath kb mb = [])
    (h : deleteBits (Tree.node l r v) kb mb sub = DelStep.ok t2) :
    t2 = Tree.node l r none ∧ (l.isNil && r.isNil) = false := by
  rw [deleteBits_of_maskedPath_nil l r v sub hmp] at h
  cases hcond : (!sub && (!l.isNil || !r.isNil)) with
  | false => rw [hcond] at h; simp at h
  | true =>
      rw [hcond] at h
      simp only [if_true] at h
      cases v with
      | some a =>
          simp only [] at h
          refine ⟨?_, ?_⟩
          · cases h; rfl
          · simp only [Bool.and_eq_true, Bool.or_eq_true, Bool.not_eq_true']
              at hcond
            rcases hcond.2 with hh | hh <;> simp [hh]
      | none => simp at h

theorem deleteBits_ok_isNil {V : Type} {t t2 : Tree V} {kb mb : List Bool}
    {sub : Bool}
    (h : deleteBits t kb mb sub = DelStep.ok t2) : t2.isNil = false := by
  induction kb generalizing t t2 mb with
  | nil =>
      cases t with
      | nil => rw [deleteBits_nilT] at h; cases h
      | node l r v =>
          obtain ⟨ht2, -⟩ := deleteBits_target_ok (maskedPath_nil_left mb) h
          subst ht2; rfl
  | cons k kb ih =>
      cases t with
      | nil => rw [deleteBits_nilT] at h; cases h
      | node l r v =>
          have htgt : maskedPath (k :: kb) mb = [] → t2.isNil = false := by
            intro hmp
            obtain ⟨ht2, -⟩ := deleteBits_target_ok hmp h
            subst ht2; rfl
          rcases mb with _ | ⟨mh, mb⟩
          · exact htgt (maskedPath_nil_right _)
          · cases mh with
            | false => exact htgt (by rw [maskedPath_cons]; simp)
            | true =>
                rw [deleteBits_cons] at h
                cases k with
                | false =>
                    simp only [Bool.false_eq_true, if_false] at h
                    cases hrec : deleteBits l kb mb sub with
                    | ok c =>
                        rw [hrec, delChild_ok] at h
                        simp only [Bool.false_eq_true, if_false] at h
                        cases h; rfl
                    | notFound => rw [hrec, delChild_notFound] at h; cases h
                    | prune pb =>
                        rw [hrec, delChild_prune_false] at h
                        cases hcond : (r.isNil && v.isNone) with
                        | true => rw [hcond] at h; simp at h
                        | false =>
                            rw [hcond] at h
                            simp only [Bool.false_eq_true, if_false] at h
                            cases h; rfl
                | true =>
                    simp only [if_pos] at h
                    cases hrec : deleteBits r kb mb sub with
                    | ok c =>
                        rw [hrec, delChild_ok] at h
                        simp only [if_pos] at h
                        cases h; rfl
                    | notFound => rw [hrec, delChild_notFound] at h; cases h
                    | prune pb =>
                        rw [hrec, delChild_prune_true] at h
                        cases hcond : (l.isNil && v.isNone) with
                        | true => rw [hcond] at h; simp at h
                        | false =>
                            rw [hcond] at h
                            simp only [Bool.false_eq_true, if_false] at h
                            cases h; rfl

theorem deleteBits_ok_noE {V : Type} {t t2 : Tree V} {kb mb : List Bool}
    {sub : Bool}
    (h : deleteBits t kb mb sub = DelStep.ok t2) (hne : noE t = true) :
    noE t2 = true := by
  induction kb generalizing t t2 mb with
  | nil =>
      cases t with
      | nil => rw [deleteBits_nilT] at h; cases h
      | node l r v =>
          obtain ⟨ht2, hch⟩ := deleteBits_target_ok (maskedPath_nil_left mb) h
          subst ht2
          rw [noE_node_iff] at hne ⊢
          exact ⟨by simp [hch], hne.2.1, hne.2.2⟩
  | cons k kb ih =>
      cases t with
      | nil => rw [deleteBits_nilT] at h; cases h
      | node l r v =>
          rw [noE_node_iff] at hne
          have htgt : maskedPath (k :: kb) mb = [] → noE t2 = true := by
            intro hmp
            obtain ⟨ht2, hch⟩ := deleteBits_target_ok hmp h
            subst ht2
            rw [noE_node_iff]
            exact ⟨by simp [hch], hne.2.1, hne.2.2⟩
          rcases mb with _ | ⟨mh, mb⟩
          · exact htgt (maskedPath_nil_right _)
          · cases mh with
            | false => exact htgt (by rw [maskedPath_cons]; simp)
            | true =>
                rw [deleteBits_cons] at h
                cases k with
                | false =>
                    simp only [Bool.false_eq_true, if_false] at h
                    cases hrec : deleteBits l kb mb sub with
                    | ok c =>
                        rw [hrec, delChild_ok] at h
                        simp only [Bool.false_eq_true, if_false] at h
                        cases h
                        rw [noE_node_iff]
                        exact ⟨by simp [deleteBits_ok_isNil hrec],
                          ih hrec hne.2.1, hne.2.2⟩
                    | notFound => rw [hrec, delChild_notFound] at h; cases h
                    | prune pb =>
                        rw [hrec, delChild_prune_false] at h
                        cases hcond : (r.isNil && v.isNone) with
                        | true => rw [hcond] at h; simp at h
                        | false =>
                            rw [hcond] at h
                            simp only [Bool.false_eq_true, if_false] at h
                            cases h
                            rw [noE_node_iff]
                            exact ⟨by rw [isNil_nilL, Bool.true_and]; exact hcond,
                              noE_nil, hne.2.2⟩
                | true =>
                    simp only [if_pos] at h
                    cases hrec : deleteBits r kb mb sub with
                    | ok c =>
                        rw [hrec, delChild_ok] at h
                        simp only [if_pos] at h
                        cases h
                        rw [noE_node_iff]
                        exact ⟨by simp [deleteBits_ok_isNil hrec],
                          hne.2.1, ih hrec hne.2.2⟩
                    | notFound => rw [hrec, delChild_notFound] at h; cases h
                    | prune pb =>
                        rw [hrec, delChild_prune_true] at h
                        cases hcond : (l.isNil && v.isNone) with
                        | true => rw [hcond] at h; simp at h
                        | false =>
                            rw [hcond] at h
                            simp only [Bool.false_eq_true, if_false] at h
                            cases h
                            rw [noE_node_iff]
                            exact ⟨by rw [isNil_nilL, Bool.and_true]; exact hcond,
                              hne.2.1, noE_nil⟩

theorem deleteBits_ok_wellTidy {V : Type} {t t2 : Tree V} {kb mb : List Bool}
    {sub : Bool}
    (h : deleteBits t kb mb sub = DelStep.ok t2) (ht : wellTidy t = true) :
    wellTidy t2 = true := by
  cases t with
  | nil => rw [deleteBits_nilT] at h; cases h
  | node l r v =>
      rw [wellTidy, Bool.and_eq_true] at ht
      have htgt : maskedPath kb mb = [] → wellTidy t2 = true := by
        intro hmp
        obtain ⟨ht2, -⟩ := deleteBits_target_ok hmp h
        subst ht2
        rw [wellTidy, Bool.and_eq_true]
        exact ht
      rcases kb with _ | ⟨k, kb⟩
      · exact htgt (maskedPath_nil_left mb)
      · rcases mb with _ | ⟨mh, mb⟩
        · exact htgt (maskedPath_nil_right _)
        · cases mh with
          | false => exact htgt (by rw [maskedPath_cons]; simp)
          | true =>
              rw [deleteBits_cons] at h
              cases k with
              | false =>
                  simp only [Bool.false_eq_true, if_false] at h
                  cases hrec : deleteBits l kb mb sub with
                  | ok c =>
                      rw [hrec, delChild_ok] at h
                      simp only [Bool.false_eq_true, if_false] at h
                      cases h
                      rw [wellTidy, Bool.and_eq_true]
                      exact ⟨deleteBits_ok_noE hrec ht.1, ht.2⟩
                  | notFound => rw [hrec, delChild_notFound] at h; cases h
                  | prune pb =>
                      rw [hrec, delChild_prune_false] at h
                      cases hcond : (r.isNil && v.isNone) with
                      | true => rw [hcond] at h; simp at h
                      | false =>
                          rw [hcond] at h
                          simp only [Bool.false_eq_true, if_false] at h
                          cases h
                          rw [wellTidy, Bool.and_eq_true]
                          exact ⟨noE_nil, ht.2⟩
              | true =>
                  simp only [if_pos] at h
                  cases hrec : deleteBits r kb mb sub with
                  | ok c =>
                      rw [hrec, delChild_ok] at h
                      simp only [if_pos] at h
                      cases h
                      rw [wellTidy, Bool.and_eq_true]
                      exact ⟨ht.1, deleteBits_ok_noE hrec ht.2⟩
                  | notFound => rw [hrec, delChild_notFound] at h; cases h
                  | prune pb =>
                      rw [hrec, delChild_prune_true] at h
                      cases hcond : (l.isNil && v.isNone) with
                      | true => rw [hcond] at h; simp at h
                      | false =>
                          rw [hcond] at h
                          simp only [Bool.false_eq_true, if_false] at h
                          cases h
                          rw [wellTidy, Bool.and_eq_true]
                          exact ⟨ht.1, noE_nil⟩

theorem afterInsert_wellTidy {V : Type} (t : Tree V) (key mask : List Nat)
    (x : V) (ow : Bool) (ht : wellTidy t = true) :
    wellTidy (afterInsert t key mask (some x) ow) = true := by
  rw [afterInsert]
  cases hI : insert t key mask (some x) ow with
  | ok t2 =>
      rw [insert] at hI
      by_cases h1 : key.length ≠ mask.length
      · rw [if_pos h1] at hI; cases hI
      · rw [if_neg h1] at hI
        by_cases h2 : key.isEmpty = true
        · rw [if_pos h2] at hI; cases hI
        · rw [if_neg h2] at hI
          exact insertBits_ok_wellTidy hI ht
  | nodeBusy => exact ht
  | badIP => exact ht
  | panicked => exact ht

theorem afterDelete_wellTidy {V : Type} (t : Tree V) (key mask : List Nat)
    (sub : Bool) (ht : wellTidy t = true) :
    wellTidy (afterDelete t key mask sub) = true := by
  rw [afterDelete]
  cases hD : delete t key mask sub with
  | ok t2 =>
      rw [delete] at hD
      by_cases h1 : key.length ≠ mask.length
      · rw [if_pos h1] at hD; cases hD
      · rw [if_neg h1] at hD
        by_cases h2 : key.isEmpty = true
        · rw [if_pos h2] at hD; cases hD
        · rw [if_neg h2] at hD
          cases hB : deleteBits t (toBits key) (toBits mask) sub with
          | ok t3 =>
              rw [hB] at hD
              cases hD
              exact deleteBits_ok_wellTidy hB ht
          | notFound => rw [hB] at hD; cases hD
          | prune pb =>
              rw [hB] at hD
              cases pb with
              | true => cases hD
              | false =>
                  cases hD
                  rw [wellTidy, Bool.and_eq_true]
                  exact ⟨noE_nil, noE_nil⟩
  | notFound => exact ht
  | badIP => exact ht
  | panicked => exact ht

/-! ### Wrapper lemmas -/

theorem insert_eq_bits {V : Type} (t : Tree V) {key mask : List Nat}
    (w : Option V) (ow : Bool)
    (hlen : key.length = mask.length) (hne : key ≠ []) :
    insert t key mask w ow = insertBits t (toBits key) (toBits mask) w ow := by
  rw [insert, if_neg (by simp [hlen]), if_neg (by simp [hne])]

theorem delete_eq_bits {V : Type} (t : Tree V) {key mask : List Nat}
    (sub : Bool) (hlen : key.length = mask.length) (hne : key ≠ []) :
    delete t key mask sub =
      match deleteBits t (toBits key) (toBits mask) sub with
      | DelStep.ok t2 => DelOut.ok t2
      | DelStep.notFound => DelOut.notFound
      | DelStep.prune true => DelOut.panicked
      | DelStep.prune false => DelOut.ok (Tree.node Tree.nil Tree.nil none) := by
  rw [delete, if_neg (by simp [hlen]), if_neg (by simp [hne])]

theorem find_eq_bits {V : Type} (t : Tree V) {key mask : List Nat}
    (hlen : key.length = mask.length) (hne : key ≠ []) :
    find t key mask = FindOut.ok (findBits t (toBits key) (toBits mask) none) := by
  rw [find, if_neg (by simp [hlen]), if_neg (by simp [hne])]

theorem afterInsert_ok {V : Type} {t t2 : Tree V} {key mask : List Nat}
    {w : Option V} {ow : Bool} (h : insert t key mask w ow = InsOut.ok t2) :
    afterInsert t key mask w ow = t2 := by
  rw [afterInsert, h]

theorem afterInsert_busy {V : Type} {t : Tree V} {key mask : List Nat}
    {w : Option V} {ow : Bool} (h : insert t key mask w ow = InsOut.nodeBusy) :
    afterInsert t key mask w ow = t := by
  rw [afterInsert, h]

theorem afterDelete_ok {V : Type} {t t2 : Tree V} {key mask : List Nat}
    {sub : Bool} (h : delete t key mask sub = DelOut.ok t2) :
    afterDelete t key mask sub = t2 := by
  rw [afterDelete, h]

theorem afterDelete_notFound {V : Type} {t : Tree V} {key mask : List Nat}
    {sub : Bool} (h : delete t key mask sub = DelOut.notFound) :
    afterDelete t key mask sub = t := by
  rw [afterDelete, h]

theorem bvB_freshRoot {V : Type} {n : Nat} (h : 0 < n) :
    bvB (freshRoot : Tree V) n = true := by
  rcases n with _ | n
  · omega
  · simp [freshRoot, bvB, bvB_nil]

theorem isNil_freshRoot {V : Type} : (freshRoot : Tree V).isNil = false := rfl

/-! ### Sequences of insertions (for longest-prefix correctness) -/

theorem build_aux {V : Type} (L : Nat) (hL : 0 < L) (ops : List (InsOp V))
    (hops : ∀ op ∈ ops,
      op.key.length = L ∧ op.mask.length = L ∧ op.val.isSome = true)
    (t : Tree V) (σ : List Bool → Option V)
    (hv : ∀ p, valueAt t p = σ p) (hnil : t.isNil = false)
    (hbv : bvB t (8 * L) = true) :
    (∀ p, valueAt (ops.foldl applyIns t) p = (ops.foldl specStep σ) p)
    ∧ (ops.foldl applyIns t).isNil = false
    ∧ bvB (ops.foldl applyIns t) (8 * L) = true := by
  induction ops generalizing t σ with
  | nil => exact ⟨hv, hnil, hbv⟩
  | cons op ops ih =>
      obtain ⟨hkey, hmask, hsome⟩ := hops op (List.mem_cons_self op ops)
      obtain ⟨x, hx⟩ : ∃ x, op.val = some x := by
        cases hval : op.val with
        | none => rw [hval] at hsome; cases hsome
        | some y => exact ⟨y, rfl⟩
      have hlenmask : op.key.length = op.mask.length := by rw [hkey, hmask]
      have hkne : op.key ≠ [] := by
        intro hc
        rw [hc] at hkey
        simp at hkey
        omega
      have hlenb : (toBits op.key).length = (toBits op.mask).length := by
        rw [toBits_length, toBits_length, hlenmask]
      have hlen8 : (toBits op.key).length = 8 * L := by
        rw [toBits_length, hkey]
      rw [List.foldl_cons, List.foldl_cons]
      have hops2 : ∀ o ∈ ops,
          o.key.length = L ∧ o.mask.length = L ∧ o.val.isSome = true :=
        fun o ho => hops o (List.mem_cons_of_mem op ho)
      have happly : applyIns t op = afterInsert t op.key op.mask op.val op.ow := rfl
      cases how : op.ow with
      | true =>
          obtain ⟨t2, h2⟩ :=
            @insertBits_ok_exists V t (toBits op.key) (toBits op.mask)
              op.val true hnil (Or.inl rfl)
          have hI : insert t op.key op.mask op.val op.ow = InsOut.ok t2 := by
            rw [insert_eq_bits t op.val op.ow hlenmask hkne, how]
            exact h2
          have hstep : applyIns t op = t2 := by rw [happly, afterInsert_ok hI]
          rw [hstep]
          have hv2 : ∀ p, valueAt t2 p = specStep σ op p := by
            intro p
            rw [insertBits_ok_valueAt h2 p, specStep, how]
            simp only [if_true]
            rw [hv p]
          refine ih hops2 t2 (specStep σ op) hv2 (insertBits_ok_isNil h2) ?_
          rw [← hlen8]
          rw [hx] at h2
          exact insertBits_ok_bv h2 (by rw [hlen8]; exact hbv)
      | false =>
          cases hσ : σ (maskedPath (toBits op.key) (toBits op.mask)) with
          | none =>
              obtain ⟨t2, h2⟩ :=
                @insertBits_ok_exists V t (toBits op.key) (toBits op.mask)
                  op.val false hnil
                  (Or.inr (by rw [hv, hσ]))
              have hI : insert t op.key op.mask op.val op.ow = InsOut.ok t2 := by
                rw [insert_eq_bits t op.val op.ow hlenmask hkne, how]
                exact h2
              have hstep : applyIns t op = t2 := by rw [happly, afterInsert_ok hI]
              rw [hstep]
              have hv2 : ∀ p, valueAt t2 p = specStep σ op p := by
                intro p
                rw [insertBits_ok_valueAt h2 p, specStep, how]
                simp only [Bool.false_eq_true, if_false]
                rw [hσ]
                rw [hv p]
              refine ih hops2 t2 (specStep σ op) hv2 (insertBits_ok_isNil h2) ?_
              rw [← hlen8]
              rw [hx] at h2
              exact insertBits_ok_bv h2 (by rw [hlen8]; exact hbv)
          | some y =>
              have hbusy : insertBits t (toBits op.key) (toBits op.mask)
                  op.val false = InsOut.nodeBusy := by
                refine insertBits_busy_of_some hnil ?_
                rw [hv, hσ]
                rfl
              have hI : insert t op.key op.mask op.val op.ow = InsOut.nodeBusy := by
                rw [insert_eq_bits t op.val op.ow hlenmask hkne, how]
                exact hbusy
              have hstep : applyIns t op = t := by rw [happly, afterInsert_busy hI]
              rw [hstep]
              have hv2 : ∀ p, valueAt t p = specStep σ op p := by
                intro p
                rw [specStep, how]
                simp only [Bool.false_eq_true, if_false]
                rw [hσ]
                exact hv p
              exact ih hops2 t (specStep σ op) hv2 hnil hbv

theorem wellTidy_foldl {V : Type} (ops : List (AnyOp V))
    (hops : ∀ op ∈ ops, insertsNone op = false) (t : Tree V)
    (ht : wellTidy t = true) :
    wellTidy (ops.foldl applyAny t) = true := by
  induction ops generalizing t with
  | nil => exact ht
  | cons op ops ih =>
      rw [List.foldl_cons]
      refine ih (fun o ho => hops o (List.mem_cons_of_mem op ho)) _ ?_
      cases op with
      | ins k m w ow =>
          have hw := hops (AnyOp.ins k m w ow) (List.mem_cons_self _ _)
          cases w with
          | none => rw [insertsNone] at hw; cases hw
          | some x => exact afterInsert_wellTidy t k m x ow ht
      | del k m sub => exact afterDelete_wellTidy t k m sub ht

theorem getByIP_lpm {V : Type} (t : Tree V) (q : List Nat)
    (hq : q.length = 4 ∨ q.length = 16)
    (hnil : t.isNil = false) (hbv : bvB t (8 * q.length) = true) :
    GetByIP t q = FindOut.ok (lpmWalk (valueAt t) (toBits q)) := by
  have hqne : q ≠ [] := by
    rcases hq with h | h <;> intro hc <;> rw [hc] at h <;> simp at h
  have hbne : toBits q ≠ [] := toBits_ne_nil hqne
  have hbvq : bvB t (toBits q).length = true := by
    rw [toBits_length]; exact hbv
  rcases hq with h4 | h16
  · rw [GetByIP, if_pos h4, find_eq_bits t (by rw [h4]; rfl) hqne]
    congr 1
    have hmb : toBits MASK_32 = List.replicate (toBits q).length true := by
      rw [MASK_32, toBits_replicate255, toBits_length, h4]
    rw [hmb, findBits_full (toBits q) t none hbne hbvq, orO_none_right]
  · rw [GetByIP, if_neg (by rw [h16]; omega),
      find_eq_bits t (by rw [h16]; rfl) hqne]
    congr 1
    have hmb : toBits MASK_128 = List.replicate (toBits q).length true := by
      rw [MASK_128, toBits_replicate255, toBits_length, h16]
    rw [hmb, findBits_full (toBits q) t none hbne hbvq, orO_none_right]

/-! ### Claims -/

/-- C2 (amended): deleting, via Remove or Sub, a prefix whose trie path does
not fully exist returns `ErrNotFound` and leaves the structure unchanged, and
Remove of a prefix whose node exists with no value but with a child likewise
returns `ErrNotFound` and leaves the structure unchanged.  (The original claim
also covered Sub of a never-inserted prefix whose path exists; the code
instead removes the whole subtree — see the counterexample.) -/
theorem claim_C2_notfound_paths {V : Type} (t : Tree V) (key mask : List Nat)
    (sub : Bool)
    (hlen : key.length = mask.length) (hne : key ≠ []) :
    (subtreeAt t (maskedPath (toBits key) (toBits mask)) = Tree.nil →
      delete t key mask sub = DelOut.notFound ∧ afterDelete t key mask sub = t)
    ∧ (∀ l r, subtreeAt t (maskedPath (toBits key) (toBits mask)) =
          Tree.node l r none →
        (l.isNil = false ∨ r.isNil = false) →
        Remove t key mask = DelOut.notFound ∧ afterDelete t key mask false = t) := by
  constructor
  · intro hnilp
    have hnf : delete t key mask sub = DelOut.notFound := by
      rw [delete_eq_bits t sub hlen hne, deleteBits_notFound_of_nilPath sub hnilp]
    exact ⟨hnf, afterDelete_notFound hnf⟩
  · intro l r hsub hch
    have hnf : delete t key mask false = DelOut.notFound := by
      rw [delete_eq_bits t false hlen hne,
        deleteBits_notFound_of_valueless hsub hch]
    exact ⟨hnf, afterDelete_notFound hnf⟩

/-- C2 witness: Remove of the never-inserted 11.0.0.0/8 on a set holding only
10.0.0.0/8 fails with `ErrNotFound` and leaves the tree unchanged. -/
theorem claim_C2_witness :
    Remove exC2 [11,0,0,0] [255,0,0,0] = DelOut.notFound
    ∧ afterDelete exC2 [11,0,0,0] [255,0,0,0] false = exC2 :=
  (claim_C2_notfound_paths exC2 [11,0,0,0] [255,0,0,0] false (by decide)
    (by decide)).1 (by decide)

/-- C2 counterexample: with only 10.0.0.0/8 inserted, Sub(10.0.0.0/4) — a
prefix never inserted, but whose 4-bit path exists inside the /8 chain — does
not return `ErrNotFound`: it succeeds and discards the whole subtree,
including the 10.0.0.0/8 entry. -/
theorem claim_C2_cex :
    IpSet.Sub exC2 [10,0,0,0] [240,0,0,0] ≠ DelOut.notFound
    ∧ afterDelete exC2 [10,0,0,0] [240,0,0,0] true ≠ exC2 := by
  decide

/-- C3 (code bug evidence): deleting the zero-length (/0) prefix reaches the
root, and the trim-leaf code at `src/ipset.go` line 140 dereferences
`node.parent` — nil for the root — so Sub panics on every tree, and Remove
panics when the root is childless; neither returns one of the three errors. -/
theorem claim_C3_zero_mask_panics :
    IpSet.Sub (freshRoot : Tree Nat) [0,0,0,0] [0,0,0,0] = DelOut.panicked
    ∧ Remove (freshRoot : Tree Nat) [0,0,0,0] [0,0,0,0] = DelOut.panicked
    ∧ IpSet.Sub exC2 [0,0,0,0] [0,0,0,0] = DelOut.panicked := by
  decide

/-- C5 (amended): with 10.0.0.0/8 mapped to A and 10.1.0.0/16 mapped to B,
after Remove(10.1.0.0/16) the query GetByIP(10.1.5.5) returns A, and
Get(10.1.0.0/16) also returns A — not none — because `find` is a
longest-prefix walk along the masked path and falls back to the covering /8
entry (the /16 node itself was trimmed away). -/
theorem claim_C5_amended :
    Remove exC5b [10,1,0,0] [255,255,0,0] = DelOut.ok exC5c
    ∧ GetByIP exC5c [10,1,5,5] = FindOut.ok (some 0)
    ∧ Get exC5c [10,1,0,0] [255,255,0,0] = FindOut.ok (some 0) := by
  decide

/-- C5 counterexample: Get(10.1.0.0/16) after the Remove does not return
none (it returns the /8 value), contradicting spec example 3. -/
theorem claim_C5_cex :
    Get exC5c [10,1,0,0] [255,255,0,0] ≠ FindOut.ok none := by
  decide

/-- C6: inserting the same exact prefix twice with Add fails the second time
with `ErrNodeBusy`, makes no state change, and the first value is still
returned by lookups (Get on that prefix). -/
theorem claim_C6_busy {V : Type} (t t2 : Tree V) (key mask : List Nat) (v : V)
    (w : Option V)
    (h1 : insert t key mask (some v) false = InsOut.ok t2) :
    insert t2 key mask w false = InsOut.nodeBusy
    ∧ afterInsert t2 key mask w false = t2
    ∧ Get t2 key mask = FindOut.ok (some v) := by
  have hlen : key.length = mask.length := by
    by_contra hc
    rw [insert, if_pos hc] at h1
    cases h1
  have hne : key ≠ [] := by
    intro hc
    rw [insert, if_neg (by simp [hlen]), if_pos (by simp [hc])] at h1
    cases h1
  rw [insert_eq_bits t (some v) false hlen hne] at h1
  have hval : valueAt t2 (maskedPath (toBits key) (toBits mask)) = some v := by
    rw [insertBits_ok_valueAt h1, if_pos rfl]
  have hbusy : insertBits t2 (toBits key) (toBits mask) w false =
      InsOut.nodeBusy :=
    insertBits_busy_of_some (insertBits_ok_isNil h1) (by rw [hval]; rfl)
  have hI2 : insert t2 key mask w false = InsOut.nodeBusy := by
    rw [insert_eq_bits t2 w false hlen hne]
    exact hbusy
  refine ⟨hI2, afterInsert_busy hI2, ?_⟩
  rw [Get, find_eq_bits t2 hlen hne]
  congr 1
  exact findBits_at (by rw [toBits_length, toBits_length, hlen])
    (toBits_ne_nil hne) hval none

/-- C6 witness at the spec example: Add(10.0.0.0/8, 0) then Add of any second
value is busy, the tree is unchanged, and Get still returns 0. -/
theorem claim_C6_witness :
    insert exC6 [10,0,0,0] [255,0,0,0] (some 1) false = InsOut.nodeBusy
    ∧ afterInsert exC6 [10,0,0,0] [255,0,0,0] (some 1) false = exC6
    ∧ Get exC6 [10,0,0,0] [255,0,0,0] = FindOut.ok (some 0) :=
  claim_C6_busy freshRoot exC6 [10,0,0,0] [255,0,0,0] 0 (some 1) (by decide)

/-- C7: whenever address and mask byte-lengths differ, insert, delete and
find (and hence the public wrappers built on them) return `ErrBadIP` with
the structure unchanged; and GetByIP returns `ErrBadIP` exactly when the bare
address length is neither 4 nor 16 bytes. -/
theorem claim_C7_badip {V : Type} (t : Tree V) (key mask ip : List Nat)
    (w : Option V) (ow sub : Bool) :
    (key.length ≠ mask.length →
      insert t key mask w ow = InsOut.badIP
      ∧ delete t key mask sub = DelOut.badIP
      ∧ find t key mask = FindOut.badIP
      ∧ afterInsert t key mask w ow = t
      ∧ afterDelete t key mask sub = t)
    ∧ (GetByIP t ip = FindOut.badIP ↔ ip.length ≠ 4 ∧ ip.length ≠ 16) := by
  constructor
  · intro hne
    have hi : insert t key mask w ow = InsOut.badIP := by
      rw [insert, if_pos hne]
    have hd : delete t key mask sub = DelOut.badIP := by
      rw [delete, if_pos hne]
    have hf : find t key mask = FindOut.badIP := by
      rw [find, if_pos hne]
    exact ⟨hi, hd, hf, by rw [afterInsert, hi], by rw [afterDelete, hd]⟩
  · by_cases h4 : ip.length = 4
    · have hok : GetByIP t ip =
          FindOut.ok (findBits t (toBits ip) (toBits MASK_32) none) := by
        rw [GetByIP, if_pos h4,
          find_eq_bits t (by rw [h4]; rfl)
            (by intro hc; rw [hc] at h4; cases h4)]
      rw [hok]
      simp [h4]
    · by_cases h16 : ip.length = 16
      · have hok : GetByIP t ip =
            FindOut.ok (findBits t (toBits ip) (toBits MASK_128) none) := by
          rw [GetByIP, if_neg h4,
            find_eq_bits t (by rw [h16]; rfl)
              (by intro hc; rw [hc] at h16; cases h16)]
        rw [hok]
        simp [h4, h16]
      · have hbad : GetByIP t ip = FindOut.badIP := by
          rw [GetByIP, if_neg h4, find,
            if_pos (by simpa using h16)]
        rw [hbad]
        simp [h4, h16]

/-- C7 witness: a 1-byte address with a 2-byte mask is rejected before any
traversal, and a 3-byte bare address is rejected by GetByIP. -/
theorem claim_C7_witness :
    insert (freshRoot : Tree Nat) [1] [1,2] none false = InsOut.badIP
    ∧ GetByIP (freshRoot : Tree Nat) [1,2,3] = FindOut.badIP :=
  ⟨((claim_C7_badip freshRoot [1] [1,2] [1,2,3] none false false).1
      (by decide)).1,
   (claim_C7_badip freshRoot [1] [1,2] [1,2,3] none false false).2.mpr
     (by decide)⟩

/-- C8 (amended): after every sequence of Add/Set/Remove/Sub operations in
which every inserted value is non-nil, no node that has neither a value nor a
child remains attached to the tree, except possibly the root.  (A nil-valued
Add creates an attached empty node — see the counterexample.) -/
theorem claim_C8_cleanup {V : Type} (ops : List (AnyOp V))
    (hops : ∀ op ∈ ops, insertsNone op = false) :
    wellTidy (List.foldl applyAny (freshRoot : Tree V) ops) = true :=
  wellTidy_foldl ops hops freshRoot rfl

/-- C8 witness: a mixed Add/Set/Remove/Sub run with non-nil values finishes
with no empty node attached. -/
theorem claim_C8_witness :
    (∀ op ∈ exC8ops, insertsNone op = false)
    ∧ wellTidy (List.foldl applyAny (freshRoot : Tree Nat) exC8ops) = true :=
  ⟨by decide, claim_C8_cleanup exC8ops (by decide)⟩

/-- C8 counterexample: the single operation Add(10.0.0.0/8, nil) leaves the
chain's final node attached with neither child nor value, violating the
claimed invariant as stated for every sequence of operations. -/
theorem claim_C8_cex :
    wellTidy (List.foldl applyAny (freshRoot : Tree Nat) exC8bad) = false := by
  decide

/-- C9: every node handed out by the arena's newNode — in particular a node
previously pushed on the free list by `releaseNode` and then reacquired — has
its left, right and parent links and its value all cleared. -/
theorem claim_C9_arena_clear {V : Type} (s : Arena V) (p : Nat) :
    ((newNode s).1).store ((newNode s).2) = clearedNode
    ∧ (newNode (releaseNode s p)).2 = p
    ∧ ((newNode (releaseNode s p)).1).store p = clearedNode := by
  refine ⟨?_, ?_, ?_⟩
  · cases hf : s.free with
    | none => simp [newNode, hf]
    | some q => simp [newNode, hf]
  · rfl
  · simp [newNode, releaseNode]

/-- C10 (amended): on a tree whose node at prefix p holds no value,
Add(p, nil) succeeds; it leaves the registered-value map unchanged at every
path; a subsequent Add(p, v) also succeeds (no `ErrNodeBusy`); and Remove(p)
reports `ErrNotFound` when p's node has a child.  (The nil entry is not fully
unobservable: a full-length lookup ending exactly at p's node returns none,
overriding any shallower match — see the counterexample.) -/
theorem claim_C10_nil_payload {V : Type} (t : Tree V) (key mask : List Nat)
    (hnil : t.isNil = false) (hlen : key.length = mask.length) (hne : key ≠ [])
    (hfree : valueAt t (maskedPath (toBits key) (toBits mask)) = none) :
    ∃ t2, insert t key mask none false = InsOut.ok t2
      ∧ (∀ p, valueAt t2 p = valueAt t p)
      ∧ (∀ w, ∃ t3, insert t2 key mask w false = InsOut.ok t3)
      ∧ (∀ l r vv, subtreeAt t2 (maskedPath (toBits key) (toBits mask)) =
            Tree.node l r vv →
          (l.isNil = false ∨ r.isNil = false) →
          Remove t2 key mask = DelOut.notFound) := by
  obtain ⟨t2, h2⟩ := insertBits_ok_exists hnil (Or.inr hfree)
  have hI : insert t key mask none false = InsOut.ok t2 := by
    rw [insert_eq_bits t none false hlen hne]
    exact h2
  have hv2 : ∀ p, valueAt t2 p = valueAt t p := by
    intro p
    rw [insertBits_ok_valueAt h2 p]
    by_cases hp : p = maskedPath (toBits key) (toBits mask)
    · rw [if_pos hp, hp, hfree]
    · rw [if_neg hp]
  refine ⟨t2, hI, hv2, ?_, ?_⟩
  · intro w
    obtain ⟨t3, h3⟩ := insertBits_ok_exists (insertBits_ok_isNil h2)
      (Or.inr (by rw [hv2]; exact hfree))
    exact ⟨t3, by rw [insert_eq_bits t2 w false hlen hne]; exact h3⟩
  · intro l r vv hsub hch
    have hvv : rootVal (Tree.node l r vv) = none := by
      rw [← hsub, ← valueAt_eq_rootVal, hv2, hfree]
    have hvv2 : vv = none := hvv
    subst hvv2
    rw [Remove, delete_eq_bits t2 false hlen hne,
      deleteBits_notFound_of_valueless hsub hch]

/-- C10 witness: with 10.0.0.0/16 registered and nothing at 10.0.0.0/8, the
nil-valued Add at /8 succeeds, registers no value anywhere, a second Add
succeeds, and Remove of the /8 is `ErrNotFound` (its node has a child). -/
theorem claim_C10_witness :
    ∃ t2, insert exC10w [10,0,0,0] [255,0,0,0] (none : Option Nat) false =
        InsOut.ok t2
      ∧ (∀ p, valueAt t2 p = valueAt exC10w p)
      ∧ (∀ w, ∃ t3, insert t2 [10,0,0,0] [255,0,0,0] w false = InsOut.ok t3)
      ∧ (∀ l r vv, subtreeAt t2 (maskedPath (toBits [10,0,0,0])
            (toBits [255,0,0,0])) = Tree.node l r vv →
          (l.isNil = false ∨ r.isNil = false) →
          Remove t2 [10,0,0,0] [255,0,0,0] = DelOut.notFound) :=
  claim_C10_nil_payload exC10w [10,0,0,0] [255,0,0,0] (by decide) (by decide)
    (by decide) (by decide)

/-- C10 counterexample: Add(10.1.5.5/32, nil) is observable — before it,
GetByIP(10.1.5.5) returned the /8 value; afterwards the full-depth node's nil
value is taken unconditionally (`src/ipset.go` lines 185-189) and the lookup
returns none. -/
theorem claim_C10_cex :
    GetByIP exC10a [10,1,5,5] = FindOut.ok (some 0)
    ∧ IpSet.Add exC10a [10,1,5,5] [255,255,255,255] (none : Option Nat) =
        InsOut.ok exC10b
    ∧ GetByIP exC10b [10,1,5,5] = FindOut.ok none := by
  decide

/-- C1: for every sequence of prefixes inserted via Add/Set (one address
family, non-nil values) and every 4- or 16-byte query, GetByIP (and hence the
underlying find) returns the longest-prefix walk over the abstract store of
inserted prefixes: the value of the most specific (longest-mask) stored
prefix covering the queried address, characterized by the last two
conjuncts, or none if no stored prefix covers it. -/
theorem claim_C1_lpm {V : Type} (ops : List (InsOp V)) (q : List Nat)
    (hq : q.length = 4 ∨ q.length = 16)
    (hops : ∀ op ∈ ops,
      op.key.length = q.length ∧ op.mask.length = q.length ∧
        op.val.isSome = true) :
    GetByIP (buildTree ops) q = FindOut.ok (lpmWalk (specStore ops) (toBits q))
    ∧ (∀ v, lpmWalk (specStore ops) (toBits q) = some v ↔
        ∃ i, i ≤ (toBits q).length ∧
          specStore ops ((toBits q).take i) = some v ∧
          ∀ j, i < j → j ≤ (toBits q).length →
            specStore ops ((toBits q).take j) = none)
    ∧ (lpmWalk (specStore ops) (toBits q) = none ↔
        ∀ i, i ≤ (toBits q).length →
          specStore ops ((toBits q).take i) = none) := by
  have hL : 0 < q.length := by rcases hq with h | h <;> omega
  obtain ⟨hv, hnil, hbv⟩ :=
    build_aux q.length hL ops hops freshRoot (fun _ => none)
      (fun p => valueAt_freshRoot p) isNil_freshRoot (bvB_freshRoot (by omega))
  refine ⟨?_, fun v => lpmWalk_some_iff _ _ v, lpmWalk_none_iff _ _⟩
  rw [getByIP_lpm (buildTree ops) q hq hnil hbv]
  congr 1
  exact lpmWalk_congr _ hv

/-- C1 witness at spec example 2: with 10.0.0.0/8 mapped to 0 and
10.1.0.0/16 mapped to 1, the query 10.1.5.5 returns 1 (more specific wins)
and 10.2.5.5 returns 0. -/
theorem claim_C1_witness :
    GetByIP (buildTree exC1ops) [10,1,5,5] =
      FindOut.ok (lpmWalk (specStore exC1ops) (toBits [10,1,5,5]))
    ∧ GetByIP (buildTree exC1ops) [10,1,5,5] = FindOut.ok (some 1)
    ∧ GetByIP (buildTree exC1ops) [10,2,5,5] = FindOut.ok (some 0) :=
  ⟨(claim_C1_lpm exC1ops [10,1,5,5] (by decide) (by decide)).1,
   by decide, by decide⟩

/-- C4: after inserting prefix P and a strictly more specific prefix Q (both
with non-nil values, from a fresh set, one address family), Remove(P)
succeeds, GetByIP on an address covered by P but not by Q returns none, and
GetByIP on an address covered by Q still returns Q's value.  Coverage and
strict refinement are phrased via list-take equations on the masked bit
paths. -/
theorem claim_C4_remove_preserves {V : Type} (kP mP kQ mQ x y : List Nat)
    (a b : V) (L : Nat) (hL : L = 4 ∨ L = 16)
    (hkP : kP.length = L) (hmP : mP.length = L)
    (hkQ : kQ.length = L) (hmQ : mQ.length = L)
    (hx : x.length = L) (hy : y.length = L)
    (hPQpre : (maskedPath (toBits kQ) (toBits mQ)).take
        (maskedPath (toBits kP) (toBits mP)).length =
        maskedPath (toBits kP) (toBits mP))
    (hPQlt : (maskedPath (toBits kP) (toBits mP)).length <
        (maskedPath (toBits kQ) (toBits mQ)).length)
    (hxP : (toBits x).take (maskedPath (toBits kP) (toBits mP)).length =
        maskedPath (toBits kP) (toBits mP))
    (hxQ : (toBits x).take (maskedPath (toBits kQ) (toBits mQ)).length ≠
        maskedPath (toBits kQ) (toBits mQ))
    (hyQ : (toBits y).take (maskedPath (toBits kQ) (toBits mQ)).length =
        maskedPath (toBits kQ) (toBits mQ)) :
    ∃ t3,
      Remove (afterInsert (afterInsert freshRoot kP mP (some a) false)
        kQ mQ (some b) false) kP mP = DelOut.ok t3
      ∧ GetByIP t3 x = FindOut.ok none
      ∧ GetByIP t3 y = FindOut.ok (some b) := by
  have hL0 : 0 < L := by rcases hL with h | h <;> omega
  have hkPne : kP ≠ [] := by intro hc; rw [hc] at hkP; simp at hkP; omega
  have hkQne : kQ ≠ [] := by intro hc; rw [hc] at hkQ; simp at hkQ; omega
  have hlenP : kP.length = mP.length := by rw [hkP, hmP]
  have hlenQ : kQ.length = mQ.length := by rw [hkQ, hmQ]
  set pP := maskedPath (toBits kP) (toBits mP) with hpPdef
  set pQ := maskedPath (toBits kQ) (toBits mQ) with hpQdef
  have hPQne : pQ ≠ pP := by
    intro hc
    rw [hc] at hPQlt
    omega
  obtain ⟨t1, h1⟩ := @insertBits_ok_exists V freshRoot (toBits kP)
    (toBits mP) (some a) false isNil_freshRoot (Or.inr (valueAt_freshRoot _))
  have hI1 : insert freshRoot kP mP (some a) false = InsOut.ok t1 := by
    rw [insert_eq_bits freshRoot (some a) false hlenP hkPne]
    exact h1
  have hv1 : ∀ p, valueAt t1 p = if p = pP then some a else none := by
    intro p
    rw [insertBits_ok_valueAt h1 p, valueAt_freshRoot]
  obtain ⟨t2, h2⟩ := @insertBits_ok_exists V t1 (toBits kQ) (toBits mQ)
    (some b) false (insertBits_ok_isNil h1)
    (Or.inr (by rw [hv1, if_neg hPQne]))
  have hI2 : insert t1 kQ mQ (some b) false = InsOut.ok t2 := by
    rw [insert_eq_bits t1 (some b) false hlenQ hkQne]
    exact h2
  have hv2 : ∀ p, valueAt t2 p =
      if p = pQ then some b else if p = pP then some a else none := by
    intro p
    rw [insertBits_ok_valueAt h2 p, hv1]
  have hbv1 : bvB t1 (8 * L) = true := by
    have hh := insertBits_ok_bv h1 (by
      rw [toBits_length, hkP]
      exact bvB_freshRoot (by omega))
    rw [toBits_length, hkP] at hh
    exact hh
  have hbv2 : bvB t2 (8 * L) = true := by
    have hh := insertBits_ok_bv h2 (by rw [toBits_length, hkQ]; exact hbv1)
    rw [toBits_length, hkQ] at hh
    exact hh
  have hvP : valueAt t2 pP = some a := by
    rw [hv2, if_neg (fun hc => hPQne hc.symm), if_pos rfl]
  obtain ⟨l2, r2, hs⟩ : ∃ l2 r2, subtreeAt t2 pP = Tree.node l2 r2 (some a) := by
    cases hsub : subtreeAt t2 pP with
    | nil =>
        rw [valueAt_eq_rootVal, hsub] at hvP
        cases hvP
    | node l2 r2 v2 =>
        rw [valueAt_eq_rootVal, hsub] at hvP
        exact ⟨l2, r2, congrArg (Tree.node l2 r2) (show v2 = some a from hvP)⟩
  have hdecomp : pP ++ pQ.drop pP.length = pQ := by
    conv_rhs => rw [← List.take_append_drop pP.length pQ]
    rw [hPQpre]
  have hdrop_ne : pQ.drop pP.length ≠ [] := by
    intro hc
    have hd2 : (pQ.drop pP.length).length = pQ.length - pP.length := by
      rw [List.length_drop]
    rw [hc] at hd2
    simp at hd2
    omega
  obtain ⟨d, rest, hdr⟩ : ∃ d rest, pQ.drop pP.length = d :: rest := by
    cases hdd : pQ.drop pP.length with
    | nil => exact absurd hdd hdrop_ne
    | cons d rest => exact ⟨d, rest, rfl⟩
  have hvQ : valueAt t2 pQ = some b := by rw [hv2, if_pos rfl]
  have hchild : (if d then r2 else l2).isNil = false := by
    by_contra hc
    have hcnil : (if d then r2 else l2) = Tree.nil := by
      cases hval : (if d then r2 else l2) with
      | nil => rfl
      | node a1 a2 a3 => rw [hval] at hc; simp [Tree.isNil] at hc
    have hnilQ : subtreeAt t2 pQ = Tree.nil := by
      rw [← hdecomp, subtreeAt_append, hs, hdr, subtreeAt_node_cons, hcnil,
        subtreeAt_nil]
    rw [valueAt_eq_rootVal, hnilQ] at hvQ
    cases hvQ
  have hch : l2.isNil = false ∨ r2.isNil = false := by
    cases d with
    | false => left; simpa using hchild
    | true => right; simpa using hchild
  have hdel : deleteBits t2 (toBits kP) (toBits mP) false =
      DelStep.ok (setValueAt t2 pP none) := deleteBits_clear hs hch
  have hRem : Remove t2 kP mP = DelOut.ok (setValueAt t2 pP none) := by
    rw [Remove, delete_eq_bits t2 false hlenP hkPne, hdel]
  have hsubnil : (subtreeAt t2 pP).isNil = false := by rw [hs]; rfl
  have hv3 : ∀ p, valueAt (setValueAt t2 pP none) p =
      if p = pQ then some b else none := by
    intro p
    rw [valueAt_setValueAt none hsubnil p]
    by_cases hp : p = pP
    · rw [if_pos hp, if_neg (by rw [hp]; exact fun hc => hPQne hc.symm)]
    · rw [if_neg hp, hv2]
      by_cases hq2 : p = pQ
      · rw [if_pos hq2, if_pos hq2]
      · rw [if_neg hq2, if_neg hq2, if_neg hp]
  have hnil3 : (setValueAt t2 pP none).isNil = false := by
    rw [isNil_setValueAt]
    exact insertBits_ok_isNil h2
  have hQle : pQ.length ≤ 8 * L := by
    have hml := maskedPath_length_le (toBits kQ) (toBits mQ)
    rw [toBits_length, hkQ] at hml
    exact hml
  have hbv3 : bvB (setValueAt t2 pP none) (8 * L) = true :=
    bvB_setValueAt none (by omega) hbv2
  refine ⟨setValueAt t2 pP none, ?_, ?_, ?_⟩
  · rw [afterInsert_ok hI1, afterInsert_ok hI2]
    exact hRem
  · rw [getByIP_lpm _ x (by rw [hx]; exact hL) hnil3 (by rw [hx]; exact hbv3)]
    congr 1
    rw [lpmWalk_congr _ hv3]
    refine (lpmWalk_none_iff _ _).mpr ?_
    intro i hi
    have htake : (toBits x).take i ≠ pQ := by
      intro hc
      have hlen1 : ((toBits x).take i).length = i := by
        rw [List.length_take]
        exact Nat.min_eq_left hi
      rw [hc] at hlen1
      exact hxQ (by rw [hlen1]; exact hc)
    show (if (toBits x).take i = pQ then some b else none) = none
    rw [if_neg htake]
  · rw [getByIP_lpm _ y (by rw [hy]; exact hL) hnil3 (by rw [hy]; exact hbv3)]
    congr 1
    rw [lpmWalk_congr _ hv3]
    have hyblen : (toBits y).length = 8 * L := by rw [toBits_length, hy]
    have hQley : pQ.length ≤ (toBits y).length := by rw [hyblen]; exact hQle
    refine (lpmWalk_some_iff _ _ b).mpr ⟨pQ.length, hQley, ?_, ?_⟩
    · show (if (toBits y).take pQ.length = pQ then some b else none) = some b
      rw [hyQ]
      simp
    · intro j hj hj2
      have htake : (toBits y).take j ≠ pQ := by
        intro hc
        have hlen1 : ((toBits y).take j).length = j := by
          rw [List.length_take]
          exact Nat.min_eq_left hj2
        rw [hc] at hlen1
        omega
      show (if (toBits y).take j = pQ then some b else none) = none
      rw [if_neg htake]

/-- C4 witness at the spec example: P = 10.0.0.0/8 mapped to 0, Q =
10.1.0.0/16 mapped to 1; after Remove(P), 10.2.5.5 (covered only by P) finds
none and 10.1.5.5 (covered by Q) still finds 1. -/
theorem claim_C4_witness :
    ∃ t3,
      Remove (afterInsert (afterInsert freshRoot [10,0,0,0] [255,0,0,0]
          (some 0) false) [10,1,0,0] [255,255,0,0] (some 1) false)
        [10,0,0,0] [255,0,0,0] = DelOut.ok t3
      ∧ GetByIP t3 [10,2,5,5] = FindOut.ok none
      ∧ GetByIP t3 [10,1,5,5] = FindOut.ok (some (1 : Nat)) :=
  claim_C4_remove_preserves [10,0,0,0] [255,0,0,0] [10,1,0,0] [255,255,0,0]
    [10,2,5,5] [10,1,5,5] 0 1 4 (by decide) (by decide) (by decide)
    (by decide) (by decide) (by decide) (by decide) (by decide) (by decide)
    (by decide) (by decide) (by decide)

end IpSet
